import Mathlib

/-!
Verification of the fmus-embed DSP core (filters, radix-2 FFT, spectral
analysis, streaming pipeline) against its natural-language specification.

The C++ sources are shallowly embedded: `std::vector<T>` becomes `List`,
`uint32_t` arithmetic becomes `Nat` with explicit `% 2^32` where overflow can
occur, `core::Result<T>` becomes `Except`, float/double arithmetic is
idealised as exact arithmetic over `ℚ` (filters) or `ℝ`/`ℂ` (FFT and
spectral analysis).
-/

namespace Fmus

/-- Error codes of core::ErrorCode used by the DSP paths
(src/include/fmus/core/error.h). -/
inductive ErrorCode
  | invalidArgument
  | dataError
  deriving DecidableEq, Repr

/-- Model of core::Result T: a value or an error code plus message. -/
abbrev CResult (α : Type) := Except (ErrorCode × String) α

/-- Model of core::makeError. -/
def makeError (α : Type) (c : ErrorCode) (msg : String) : CResult α :=
  .error (c, msg)

/-- Model of core::makeOk. -/
def makeOk {α : Type} (a : α) : CResult α := .ok a

namespace FFT

/-- FFT::isValidSize (src/src/dsp/fft.cpp): size > 0 && (size & (size-1)) == 0. -/
def isValidSize (size : ℕ) : Bool :=
  decide (0 < size) && (size &&& (size - 1) == 0)

/-- Bit-smearing cascade of FFT::nextPowerOf2 (src/src/dsp/fft.cpp):
n |= n >> 1; n |= n >> 2; n |= n >> 4; n |= n >> 8; n |= n >> 16.
Right shifts and ors never grow a value, so these five steps cannot
overflow a `uint32_t` when the input fits. -/
def smear32 (m : ℕ) : ℕ :=
  let m2 := m ||| (m >>> 1)
  let m3 := m2 ||| (m2 >>> 2)
  let m4 := m3 ||| (m3 >>> 4)
  let m5 := m4 ||| (m4 >>> 8)
  m5 ||| (m5 >>> 16)

/-- FFT::nextPowerOf2 (src/src/dsp/fft.cpp): decrement, smear, increment, on a
`uint32_t`. Only the final increment can wrap; the wrap is made explicit with
`% 2^32`. -/
def nextPowerOf2 (n : ℕ) : ℕ :=
  if n = 0 then 1 else (smear32 (n - 1) + 1) % 2 ^ 32

end FFT

section PowerOfTwoHelpers

/-- Stepping lemma for the smear cascade: if every bit of v is the or of a
window of c consecutive bits of m, then every bit of v ||| (v >>> c) is the
or of a window of 2c consecutive bits of m. -/
lemma or_shift_testBit (v c m : ℕ)
    (hv : ∀ i, v.testBit i = true ↔ ∃ o < c, m.testBit (i + o) = true) (i : ℕ) :
    (v ||| v >>> c).testBit i = true ↔ ∃ o < 2 * c, m.testBit (i + o) = true := by
  rw [Nat.testBit_lor, Bool.or_eq_true, hv i, Nat.testBit_shiftRight, hv (c + i)]
  constructor
  · rintro (⟨o, ho, hto⟩ | ⟨o, ho, hto⟩)
    · exact ⟨o, by omega, hto⟩
    · exact ⟨c + o, by omega, by rwa [show i + (c + o) = c + i + o by omega]⟩
  · rintro ⟨o, ho, hto⟩
    by_cases h : o < c
    · exact Or.inl ⟨o, h, hto⟩
    · exact Or.inr ⟨o - c, by omega, by rwa [show c + i + (o - c) = i + o by omega]⟩

/-- Bit characterisation of the smear: bit i of smear32 m is the or of bits
i .. i+31 of m. -/
lemma smear32_testBit (m i : ℕ) :
    (FFT.smear32 m).testBit i = true ↔ ∃ o < 32, m.testBit (i + o) = true := by
  have h0 : ∀ i, m.testBit i = true ↔ ∃ o < 1, m.testBit (i + o) = true := by
    intro i
    constructor
    · exact fun h => ⟨0, by omega, by simpa using h⟩
    · rintro ⟨o, ho, hto⟩
      have : o = 0 := by omega
      simpa [this] using hto
  have h1 := or_shift_testBit m 1 m h0
  have h2 := or_shift_testBit (m ||| m >>> 1) 2 m h1
  have h3 := or_shift_testBit ((m ||| m >>> 1) ||| (m ||| m >>> 1) >>> 2) 4 m h2
  have h4 := or_shift_testBit _ 8 m h3
  have h5 := or_shift_testBit _ 16 m h4
  simpa [FFT.smear32] using h5 i

/-- Value of the smear on a number of bit-length h (with h ≤ 32): all h low
bits become set. -/
lemma smear32_eq_pow_sub_one (m h : ℕ) (h1 : 1 ≤ h) (h32 : h ≤ 32)
    (hlo : 2 ^ (h - 1) ≤ m) (hhi : m < 2 ^ h) :
    FFT.smear32 m = 2 ^ h - 1 := by
  have htop : m.testBit (h - 1) = true := by
    rw [Nat.testBit_to_div_mod]
    have hdiv : m / 2 ^ (h - 1) = 1 := by
      refine Nat.div_eq_of_lt_le (by simpa using hlo) ?_
      have : 2 ^ h = 2 * 2 ^ (h - 1) := by
        rw [← pow_succ']
        congr 1
        omega
      omega
    simp [hdiv]
  apply Nat.eq_of_testBit_eq
  intro i
  rw [Nat.testBit_two_pow_sub_one]
  by_cases hi : i < h
  · rw [(smear32_testBit m i).mpr ⟨h - 1 - i, by omega, by
      rwa [show i + (h - 1 - i) = h - 1 by omega]⟩]
    simp [hi]
  · have : (FFT.smear32 m).testBit i = false := by
      rw [← Bool.not_eq_true, smear32_testBit m i]
      rintro ⟨o, ho, hto⟩
      have : m.testBit (i + o) = false :=
        Nat.testBit_eq_false_of_lt
          (lt_of_lt_of_le hhi (Nat.pow_le_pow_right (by norm_num) (by omega)))
      simp [this] at hto
    rw [this]
    simp [hi]

/-- Correctness of nextPowerOf2 on the whole non-wrapping range [1, 2^31]:
the result is the smallest power of two that is at least n. -/
lemma nextPowerOf2_correct (n : ℕ) (h1 : 1 ≤ n) (h2 : n ≤ 2 ^ 31) :
    (∃ j, FFT.nextPowerOf2 n = 2 ^ j) ∧ n ≤ FFT.nextPowerOf2 n ∧
      ∀ m, (∃ j, m = 2 ^ j) → n ≤ m → FFT.nextPowerOf2 n ≤ m := by
  rcases Nat.eq_or_lt_of_le h1 with h1' | h1'
  · -- n = 1: smear32 0 = 0 and the result is 1 = 2^0
    subst h1'
    refine ⟨⟨0, by decide⟩, by decide, ?_⟩
    rintro m ⟨j, rfl⟩ hm
    have : FFT.nextPowerOf2 1 = 1 := by decide
    omega
  · -- n ≥ 2: the smear turns n-1 into 2^h - 1 where h is the bit-length of n-1
    set m := n - 1 with hm
    have hmpos : 1 ≤ m := by omega
    set h := Nat.log 2 m + 1 with hh
    have hlo : 2 ^ (h - 1) ≤ m := by
      simpa [hh] using Nat.pow_log_le_self 2 (by omega : m ≠ 0)
    have hhi : m < 2 ^ h := Nat.lt_pow_succ_log_self (by norm_num) m
    have h31 : h ≤ 31 := by
      by_contra hcon
      have : 2 ^ 31 ≤ 2 ^ (h - 1) := Nat.pow_le_pow_right (by norm_num) (by omega)
      omega
    have hsmear : FFT.smear32 m = 2 ^ h - 1 :=
      smear32_eq_pow_sub_one m h (by omega) (by omega) hlo hhi
    have hval : FFT.nextPowerOf2 n = 2 ^ h := by
      have hlt : 2 ^ h < 2 ^ 32 := Nat.pow_lt_pow_right (by norm_num) (by omega)
      have hpos : 0 < 2 ^ h := Nat.pos_pow_of_pos h (by norm_num)
      rw [FFT.nextPowerOf2, if_neg (by omega), ← hm, hsmear]
      rw [Nat.sub_add_cancel hpos, Nat.mod_eq_of_lt hlt]
    refine ⟨⟨h, hval⟩, by omega, ?_⟩
    rintro p ⟨j, rfl⟩ hnp
    rw [hval]
    apply Nat.pow_le_pow_right (by norm_num)
    by_contra hcon
    have : 2 ^ j ≤ 2 ^ (h - 1) := Nat.pow_le_pow_right (by norm_num) (by omega)
    omega

/-- Claim C6: isValidSize n is true iff n > 0 and n AND (n-1) vanishes;
nextPowerOf2 n is the smallest power of two that is at least n, for every
n in [1, 1024]; and nextPowerOf2 0 = 1. -/
theorem isValidSize_nextPowerOf2_spec (n : ℕ) :
    (FFT.isValidSize n = true ↔ (0 < n ∧ n &&& (n - 1) = 0)) ∧
    (1 ≤ n → n ≤ 1024 →
      (∃ j, FFT.nextPowerOf2 n = 2 ^ j) ∧ n ≤ FFT.nextPowerOf2 n ∧
      ∀ m, (∃ j, m = 2 ^ j) → n ≤ m → FFT.nextPowerOf2 n ≤ m) ∧
    FFT.nextPowerOf2 0 = 1 := by
  refine ⟨?_, ?_, by decide⟩
  · simp [FFT.isValidSize, Bool.and_eq_true, decide_eq_true_iff]
  · intro hn1 hn2
    exact nextPowerOf2_correct n hn1 (by omega)

/-- Witness for claim C6 at n = 5: nextPowerOf2 0 = 1 and nextPowerOf2 5 is
at least 5 while being at most the power of two 8. -/
theorem isValidSize_nextPowerOf2_spec_witness :
    FFT.nextPowerOf2 0 = 1 ∧ 5 ≤ FFT.nextPowerOf2 5 ∧ FFT.nextPowerOf2 5 ≤ 8 :=
  ⟨(isValidSize_nextPowerOf2_spec 5).2.2,
   ((isValidSize_nextPowerOf2_spec 5).2.1 (by decide) (by decide)).2.1,
   ((isValidSize_nextPowerOf2_spec 5).2.1 (by decide) (by decide)).2.2
     8 ⟨3, rfl⟩ (by decide)⟩

/-- Claim C10: for every n with 2^31 < n ≤ 2^32 - 1, the smearing-and-increment
computation of nextPowerOf2 wraps modulo 2^32 and returns 0, which is not a
power of two and is below n. -/
theorem nextPowerOf2_wraps (n : ℕ) (hlo : 2 ^ 31 < n) (hhi : n < 2 ^ 32) :
    FFT.nextPowerOf2 n = 0 ∧ (¬ ∃ j, FFT.nextPowerOf2 n = 2 ^ j) ∧
      FFT.nextPowerOf2 n < n := by
  have hsmear : FFT.smear32 (n - 1) = 2 ^ 32 - 1 :=
    smear32_eq_pow_sub_one (n - 1) 32 (by norm_num) le_rfl (by omega) (by omega)
  have hval : FFT.nextPowerOf2 n = 0 := by
    rw [FFT.nextPowerOf2, if_neg (by omega), hsmear]
    norm_num
  refine ⟨hval, ?_, by omega⟩
  rintro ⟨j, hj⟩
  rw [hval] at hj
  have : (0:ℕ) < 2 ^ j := Nat.pos_pow_of_pos j (by norm_num)
  omega

/-- Witness for claim C10 at n = 2^31 + 1. -/
theorem nextPowerOf2_wraps_witness :
    FFT.nextPowerOf2 (2 ^ 31 + 1) = 0 ∧ FFT.nextPowerOf2 (2 ^ 31 + 1) < 2 ^ 31 + 1 :=
  ⟨(nextPowerOf2_wraps (2 ^ 31 + 1) (by norm_num) (by norm_num)).1,
   (nextPowerOf2_wraps (2 ^ 31 + 1) (by norm_num) (by norm_num)).2.2⟩

end PowerOfTwoHelpers

/-! ## MovingAverageFilter (src/src/dsp/filter.cpp)

Filter samples are float/double in the source; they are idealised as exact
rationals. The circular buffer, running sum, index and buffer-full flag are
embedded exactly as in the source. -/

/-- State of MovingAverageFilter: window size, circular buffer, write index,
running sum, and the buffer-full flag. -/
structure MovingAverageFilter where
  windowSize : ℕ
  buffer : List ℚ
  index : ℕ
  sum : ℚ
  bufferFull : Bool
  deriving DecidableEq, Repr

namespace MovingAverageFilter

/-- Constructor MovingAverageFilter(windowSize): a zero window size is coerced
to 1 (with a logged error in the source); the buffer starts zero-filled. -/
def create (windowSize : ℕ) : MovingAverageFilter :=
  let ws := if windowSize = 0 then 1 else windowSize
  ⟨ws, List.replicate ws 0, 0, 0, false⟩

/-- MovingAverageFilter::process(T): subtract the evicted value from the sum,
store the input, advance the index, set the full flag when the index wraps,
and divide by the effective count (windowSize once full, else the index). -/
def process (st : MovingAverageFilter) (input : ℚ) : MovingAverageFilter × ℚ :=
  let sum1 := st.sum - st.buffer.getD st.index 0
  let buffer := st.buffer.set st.index input
  let sum2 := sum1 + input
  let index := (st.index + 1) % st.windowSize
  let full := st.bufferFull || (index == 0)
  let divisor := if full then st.windowSize else if index = 0 then st.windowSize else index
  (⟨st.windowSize, buffer, index, sum2, full⟩, sum2 / (divisor : ℚ))

/-- MovingAverageFilter::reset(): zero the buffer, index, sum and flag. -/
def reset (st : MovingAverageFilter) : MovingAverageFilter :=
  ⟨st.windowSize, List.replicate st.buffer.length 0, 0, 0, false⟩

/-- MovingAverageFilter::getOrder(): the window size. -/
def getOrder (st : MovingAverageFilter) : ℕ := st.windowSize

/-- State after feeding the first k samples of the stream f to a freshly
constructed filter. -/
def iter (w : ℕ) (f : ℕ → ℚ) : ℕ → MovingAverageFilter
  | 0 => create w
  | k + 1 => ((iter w f k).process (f k)).1

/-- Output of the (k+1)-st process call on the stream f. -/
def output (w : ℕ) (f : ℕ → ℚ) (k : ℕ) : ℚ := ((iter w f k).process (f k)).2

end MovingAverageFilter

section MovingAverageProofs

/-- State invariant of the moving-average filter after k samples of stream f:
the index is k mod w, the full flag records whether k reached w, the running
sum is the sum of the last min(k,w) samples, and buffer slot i holds the
sample f j for the unique j in the last window with j mod w = i (0 if the
slot was never written). -/
lemma ma_iter_spec (w : ℕ) (hw : 1 ≤ w) (f : ℕ → ℚ) (k : ℕ) :
    (MovingAverageFilter.iter w f k).windowSize = w ∧
    (MovingAverageFilter.iter w f k).buffer.length = w ∧
    (MovingAverageFilter.iter w f k).index = k % w ∧
    (MovingAverageFilter.iter w f k).bufferFull = decide (w ≤ k) ∧
    (MovingAverageFilter.iter w f k).sum = ∑ j in Finset.Ico (k - min k w) k, f j ∧
    ∀ i, i < w →
      (∀ j, k - w ≤ j → j < k → j % w = i →
        (MovingAverageFilter.iter w f k).buffer.getD i 0 = f j) ∧
      (k ≤ i → (MovingAverageFilter.iter w f k).buffer.getD i 0 = 0) := by
  -- uniqueness of a residue in a window of w consecutive naturals
  have huniq : ∀ a b : ℕ, a % w = b % w → a ≤ b → b - a < w → a = b := by
    intro a b hab hle hlt
    have hdvd : w ∣ b - a := (Nat.modEq_iff_dvd' hle).mp hab
    have := Nat.eq_zero_of_dvd_of_lt hdvd
    omega
  induction k with
  | zero =>
    have hw0 : ¬ (w = 0) := by omega
    refine ⟨by simp [MovingAverageFilter.iter, MovingAverageFilter.create, hw0],
      by simp [MovingAverageFilter.iter, MovingAverageFilter.create, hw0],
      by simp [MovingAverageFilter.iter, MovingAverageFilter.create],
      by simp [MovingAverageFilter.iter, MovingAverageFilter.create, Nat.le_zero, hw0],
      by simp [MovingAverageFilter.iter, MovingAverageFilter.create],
      ?_⟩
    intro i hi
    constructor
    · intro j _ hj _
      omega
    · intro _
      simp only [MovingAverageFilter.iter, MovingAverageFilter.create]
      rw [if_neg (by omega)]
      simp [List.getD_eq_getElem?_getD, List.getElem?_replicate]
      split <;> simp
  | succ k ih =>
    obtain ⟨hws, hlen, hidx, hfull, hsum, hbuf⟩ := ih
    have hkw : k % w < w := Nat.mod_lt k (by omega)
    have hmle : k % w ≤ k := Nat.mod_le k w
    constructor
    · simp [MovingAverageFilter.iter, MovingAverageFilter.process, hws]
    constructor
    · simp [MovingAverageFilter.iter, MovingAverageFilter.process, hlen]
    constructor
    · simp only [MovingAverageFilter.iter, MovingAverageFilter.process, hws, hidx]
      rw [Nat.mod_add_mod]
    constructor
    · simp only [MovingAverageFilter.iter, MovingAverageFilter.process, hws, hidx,
        hfull]
      rw [Nat.mod_add_mod]
      rcases Nat.lt_or_ge k w with hk | hk
      · by_cases hkw1 : k + 1 = w
        · have hmod : (k + 1) % w = 0 := by rw [hkw1, Nat.mod_self]
          simp [hmod, show w ≤ k + 1 by omega]
        · have hlt : k + 1 < w := by omega
          have hmod : (k + 1) % w = k + 1 := Nat.mod_eq_of_lt hlt
          simp [hmod, Nat.not_le.mpr hk, Nat.not_le.mpr hlt]
      · simp [hk, Nat.le_succ_of_le hk]
    · -- value currently stored in the slot about to be overwritten
      have hev : (MovingAverageFilter.iter w f k).buffer.getD (k % w) 0 =
          if w ≤ k then f (k - w) else 0 := by
        rcases Nat.lt_or_ge k w with hk | hk
        · rw [if_neg (by omega)]
          have hmod : k % w = k := Nat.mod_eq_of_lt hk
          exact (hbuf (k % w) hkw).2 (by omega)
        · rw [if_pos hk]
          refine (hbuf (k % w) hkw).1 (k - w) (by omega) (by omega) ?_
          conv_rhs => rw [show k = (k - w) + w by omega]
          rw [Nat.add_mod_right]
      constructor
      · -- running sum
        simp only [MovingAverageFilter.iter, MovingAverageFilter.process, hws, hidx,
          hsum, hev]
        rcases Nat.lt_or_ge k w with hk | hk
        · rw [if_neg (by omega)]
          have h1 : min k w = k := by omega
          have h2 : min (k + 1) w = k + 1 := by omega
          rw [h1, h2, Nat.sub_self, Nat.sub_self,
            Finset.sum_Ico_succ_top (by omega) f]
          ring
        · rw [if_pos hk]
          have h1 : min k w = w := by omega
          have h2 : min (k + 1) w = w := by omega
          rw [h1, h2, show k + 1 - w = k - w + 1 by omega]
          have hsplit : ∑ j in Finset.Ico (k - w) (k + 1), f j =
              f (k - w) + ∑ j in Finset.Ico (k - w + 1) (k + 1), f j :=
            Finset.sum_eq_sum_Ico_succ_bot (by omega) f
          have htop : ∑ j in Finset.Ico (k - w) (k + 1), f j =
              (∑ j in Finset.Ico (k - w) k, f j) + f k :=
            Finset.sum_Ico_succ_top (by omega) f
          have hcomb := hsplit.symm.trans htop
          linarith [hcomb]
      · -- buffer slots
        intro i hi
        constructor
        · intro j hj1 hj2 hj3
          simp only [MovingAverageFilter.iter, MovingAverageFilter.process, hws,
            hidx]
          by_cases hik : i = k % w
          · -- slot being written: the only admissible j is k itself
            have hjk : j = k := by
              refine huniq j k (by rw [hj3, hik]) (by omega) (by omega)
            subst hjk
            rw [List.getD_eq_getElem?_getD, hik,
              List.getElem?_set_self (by omega), Option.getD_some]
          · -- untouched slot: j is still in the previous window
            have hjk : j ≠ k := by
              intro h
              exact hik (by rw [← hj3, h])
            rw [List.getD_eq_getElem?_getD,
              List.getElem?_set_ne (fun h => hik h.symm),
              ← List.getD_eq_getElem?_getD]
            exact (hbuf i hi).1 j (by omega) (by omega) hj3
        · intro hki
          have hik : ¬ (k % w = i) := by omega
          simp only [MovingAverageFilter.iter, MovingAverageFilter.process, hws,
            hidx]
          rw [List.getD_eq_getElem?_getD, List.getElem?_set_ne hik,
            ← List.getD_eq_getElem?_getD]
          exact (hbuf i hi).2 (by omega)

/-- Unfolding of the k-th output: the new running sum divided by the divisor
computed from the post-update index and full flag. -/
lemma ma_output_eq (w : ℕ) (f : ℕ → ℚ) (k : ℕ) :
    MovingAverageFilter.output w f k =
      (MovingAverageFilter.iter w f (k + 1)).sum /
        ((if (MovingAverageFilter.iter w f (k + 1)).bufferFull
          then (MovingAverageFilter.iter w f (k + 1)).windowSize
          else if (MovingAverageFilter.iter w f (k + 1)).index = 0
          then (MovingAverageFilter.iter w f (k + 1)).windowSize
          else (MovingAverageFilter.iter w f (k + 1)).index : ℕ) : ℚ) := rfl

/-- Claim C4: for every window size w ≥ 1 and every input stream f, the k-th
process call returns the sum of the last min(k, w) inputs divided by
min(k, w) (counting the k-th call with k starting at 1); consequently a
constant stream c yields output c from the w-th sample onward. -/
theorem movingAverage_ramp_up (w : ℕ) (hw : 1 ≤ w) (f : ℕ → ℚ) (k : ℕ) :
    MovingAverageFilter.output w f k =
      (∑ j in Finset.Ico (k + 1 - min (k + 1) w) (k + 1), f j) /
        ((min (k + 1) w : ℕ) : ℚ) ∧
    ∀ c : ℚ, (∀ j, f j = c) → w ≤ k + 1 → MovingAverageFilter.output w f k = c := by
  obtain ⟨hws, hlen, hidx, hfull, hsum, hbuf⟩ := ma_iter_spec w hw f (k + 1)
  have hmain : MovingAverageFilter.output w f k =
      (∑ j in Finset.Ico (k + 1 - min (k + 1) w) (k + 1), f j) /
        ((min (k + 1) w : ℕ) : ℚ) := by
    rw [ma_output_eq, hws, hidx, hfull, hsum]
    have hminsub : k + 1 - min (k + 1) w = k + 1 - min (k + 1) w := rfl
    rcases Nat.lt_or_ge (k + 1) w with hk | hk
    · have hne : (k + 1) % w = k + 1 := Nat.mod_eq_of_lt hk
      rw [hne]
      have h1 : min (k + 1) w = k + 1 := by omega
      rw [if_neg (by simp; omega), if_neg (by omega), h1]
    · have h1 : min (k + 1) w = w := by omega
      rw [if_pos (by simp [hk]), h1]
  refine ⟨hmain, ?_⟩
  intro c hc hwk
  rw [hmain]
  have hm1 : 1 ≤ min (k + 1) w := by omega
  have hmle : min (k + 1) w ≤ k + 1 := by omega
  have hcard : (Finset.Ico (k + 1 - min (k + 1) w) (k + 1)).card = min (k + 1) w := by
    rw [Nat.card_Ico]
    omega
  rw [Finset.sum_congr rfl (fun j _ => hc j), Finset.sum_const, hcard,
    nsmul_eq_mul]
  rw [mul_comm, mul_div_assoc, div_self (by positivity), mul_one]

/-- Witness for claim C4: window size 2 over the stream 1, 2, 3, ...; the
third output is (2 + 3) / 2 and a constant stream gives back the constant. -/
theorem movingAverage_ramp_up_witness :
    MovingAverageFilter.output 2 (fun j => (j : ℚ) + 1) 2 = 5 / 2 ∧
    MovingAverageFilter.output 2 (fun _ => (7 : ℚ)) 3 = 7 := by
  constructor
  · have h := (movingAverage_ramp_up 2 (by norm_num) (fun j => (j : ℚ) + 1) 2).1
    rw [h]
    norm_num [Finset.sum_Ico_eq_sum_range]
  · exact (movingAverage_ramp_up 2 (by norm_num) (fun _ => (7 : ℚ)) 3).2 7
      (fun _ => rfl) (by norm_num)


end MovingAverageProofs

/-! ## MedianFilter (src/src/dsp/filter.cpp) -/

/-- State of MedianFilter: window size, circular buffer, write index, and the
buffer-full flag. -/
structure MedianFilter where
  windowSize : ℕ
  buffer : List ℚ
  index : ℕ
  bufferFull : Bool
  deriving DecidableEq, Repr

namespace MedianFilter

/-- Constructor MedianFilter(windowSize): a zero window size is coerced to 1
(with a logged error in the source); an even size is accepted with a warning;
the buffer starts zero-filled. -/
def create (windowSize : ℕ) : MedianFilter :=
  let ws := if windowSize = 0 then 1 else windowSize
  ⟨ws, List.replicate ws 0, 0, false⟩

/-- MedianFilter::calculateMedian(): copy the valid portion of the buffer
(the whole buffer once full, else the first index entries), sort it
ascending, and return the middle element, or the average of the two middle
elements for an even count; an empty portion returns 0. std::sort is embedded
as insertion sort: any ascending comparison sort produces the same list. -/
def calculateMedian (st : MedianFilter) : ℚ :=
  let sortBuffer := if st.bufferFull then st.buffer else st.buffer.take st.index
  if sortBuffer.isEmpty then 0
  else
    let s := List.insertionSort (· ≤ ·) sortBuffer
    if s.length % 2 = 0 then
      (s.getD (s.length / 2 - 1) 0 + s.getD (s.length / 2) 0) / 2
    else s.getD (s.length / 2) 0

/-- MedianFilter::process(T): store the input, advance the index, set the
full flag when the index wraps, then return the median of the valid portion. -/
def process (st : MedianFilter) (input : ℚ) : MedianFilter × ℚ :=
  let buffer := st.buffer.set st.index input
  let index := (st.index + 1) % st.windowSize
  let full := st.bufferFull || (index == 0)
  let st1 : MedianFilter := ⟨st.windowSize, buffer, index, full⟩
  (st1, st1.calculateMedian)

/-- MedianFilter::reset(): zero the buffer, index and flag. -/
def reset (st : MedianFilter) : MedianFilter :=
  ⟨st.windowSize, List.replicate st.buffer.length 0, 0, false⟩

/-- MedianFilter::getOrder(): the window size. -/
def getOrder (st : MedianFilter) : ℕ := st.windowSize

/-- State after feeding the first k samples of the stream f to a freshly
constructed filter. -/
def iter (w : ℕ) (f : ℕ → ℚ) : ℕ → MedianFilter
  | 0 => create w
  | k + 1 => ((iter w f k).process (f k)).1

/-- Output of the (k+1)-st process call on the stream f. -/
def output (w : ℕ) (f : ℕ → ℚ) (k : ℕ) : ℚ := ((iter w f k).process (f k)).2

end MedianFilter

/-- Median of a list of samples as the claim describes it: sort ascending and
take the middle element, or the average of the two middle elements when the
count is even (0 for an empty list). -/
def medianOfList (l : List ℚ) : ℚ :=
  if l.isEmpty then 0
  else
    let s := List.insertionSort (· ≤ ·) l
    if s.length % 2 = 0 then
      (s.getD (s.length / 2 - 1) 0 + s.getD (s.length / 2) 0) / 2
    else s.getD (s.length / 2) 0

section MedianProofs

/-- Sorting ascending is invariant under permutation of the input. -/
lemma insertionSort_eq_of_perm (l1 l2 : List ℚ) (h : l1.Perm l2) :
    List.insertionSort (· ≤ ·) l1 = List.insertionSort (· ≤ ·) l2 :=
  List.eq_of_perm_of_sorted
    ((List.perm_insertionSort _ l1).trans (h.trans (List.perm_insertionSort _ l2).symm))
    (List.sorted_insertionSort _ l1) (List.sorted_insertionSort _ l2)

/-- The claim-side median only depends on the multiset of samples. -/
lemma medianOfList_congr (l1 l2 : List ℚ) (h : l1.Perm l2) :
    medianOfList l1 = medianOfList l2 := by
  unfold medianOfList
  rw [insertionSort_eq_of_perm l1 l2 h]
  have hemp : l1.isEmpty = l2.isEmpty := by
    rcases l1 with _ | ⟨a, l1⟩ <;> rcases l2 with _ | ⟨b, l2⟩
    · rfl
    · exact absurd h.length_eq (by simp)
    · exact absurd h.length_eq (by simp)
    · rfl
  rw [hemp]

/-- State invariant of the median filter after k samples of stream f: index,
full flag, and the slot contents (slot i holds f j for the unique j in the
last window with j mod w = i; 0 if never written). -/
lemma med_iter_spec (w : ℕ) (hw : 1 ≤ w) (f : ℕ → ℚ) (k : ℕ) :
    (MedianFilter.iter w f k).windowSize = w ∧
    (MedianFilter.iter w f k).buffer.length = w ∧
    (MedianFilter.iter w f k).index = k % w ∧
    (MedianFilter.iter w f k).bufferFull = decide (w ≤ k) ∧
    ∀ i, i < w →
      (∀ j, k - w ≤ j → j < k → j % w = i →
        (MedianFilter.iter w f k).buffer.getD i 0 = f j) ∧
      (k ≤ i → (MedianFilter.iter w f k).buffer.getD i 0 = 0) := by
  have huniq : ∀ a b : ℕ, a % w = b % w → a ≤ b → b - a < w → a = b := by
    intro a b hab hle hlt
    have hdvd : w ∣ b - a := (Nat.modEq_iff_dvd' hle).mp hab
    have := Nat.eq_zero_of_dvd_of_lt hdvd
    omega
  induction k with
  | zero =>
    have hw0 : ¬ (w = 0) := by omega
    refine ⟨by simp [MedianFilter.iter, MedianFilter.create, hw0],
      by simp [MedianFilter.iter, MedianFilter.create, hw0],
      by simp [MedianFilter.iter, MedianFilter.create],
      by simp [MedianFilter.iter, MedianFilter.create, Nat.le_zero, hw0],
      ?_⟩
    intro i hi
    constructor
    · intro j _ hj _
      omega
    · intro _
      simp only [MedianFilter.iter, MedianFilter.create]
      rw [if_neg (by omega)]
      simp [List.getD_eq_getElem?_getD, List.getElem?_replicate]
      split <;> simp
  | succ k ih =>
    obtain ⟨hws, hlen, hidx, hfull, hbuf⟩ := ih
    have hkw : k % w < w := Nat.mod_lt k (by omega)
    have hmle : k % w ≤ k := Nat.mod_le k w
    constructor
    · simp [MedianFilter.iter, MedianFilter.process, hws]
    constructor
    · simp [MedianFilter.iter, MedianFilter.process, hlen]
    constructor
    · simp only [MedianFilter.iter, MedianFilter.process, hws, hidx]
      rw [Nat.mod_add_mod]
    constructor
    · simp only [MedianFilter.iter, MedianFilter.process, hws, hidx, hfull]
      rw [Nat.mod_add_mod]
      rcases Nat.lt_or_ge k w with hk | hk
      · by_cases hkw1 : k + 1 = w
        · have hmod : (k + 1) % w = 0 := by rw [hkw1, Nat.mod_self]
          simp [hmod, show w ≤ k + 1 by omega]
        · have hlt : k + 1 < w := by omega
          have hmod : (k + 1) % w = k + 1 := Nat.mod_eq_of_lt hlt
          simp [hmod, Nat.not_le.mpr hk, Nat.not_le.mpr hlt]
      · simp [hk, Nat.le_succ_of_le hk]
    · intro i hi
      constructor
      · intro j hj1 hj2 hj3
        simp only [MedianFilter.iter, MedianFilter.process, hws, hidx]
        by_cases hik : i = k % w
        · have hjk : j = k := by
            refine huniq j k (by rw [hj3, hik]) (by omega) (by omega)
          subst hjk
          rw [List.getD_eq_getElem?_getD, hik,
            List.getElem?_set_self (by omega), Option.getD_some]
        · have hjk : j ≠ k := by
            intro h
            exact hik (by rw [← hj3, h])
          rw [List.getD_eq_getElem?_getD,
            List.getElem?_set_ne (fun h => hik h.symm),
            ← List.getD_eq_getElem?_getD]
          exact (hbuf i hi).1 j (by omega) (by omega) hj3
      · intro hki
        have hik : ¬ (k % w = i) := by omega
        simp only [MedianFilter.iter, MedianFilter.process, hws, hidx]
        rw [List.getD_eq_getElem?_getD, List.getElem?_set_ne hik,
          ← List.getD_eq_getElem?_getD]
        exact (hbuf i hi).2 (by omega)

/-- Claim C5: the k-th process call (k counted from 1) returns the median of
the last min(k, w) samples, computed by sorting the currently valid portion
of the buffer; before the buffer first fills this is the median of the
samples seen so far. -/
theorem medianFilter_spec (w : ℕ) (hw : 1 ≤ w) (f : ℕ → ℚ) (k : ℕ) :
    MedianFilter.output w f k =
      medianOfList ((List.range (min (k + 1) w)).map
        (fun t => f (k + 1 - min (k + 1) w + t))) := by
  obtain ⟨hws, hlen, hidx, hfull, hbuf⟩ := med_iter_spec w hw f (k + 1)
  have hout : MedianFilter.output w f k =
      medianOfList (if (MedianFilter.iter w f (k + 1)).bufferFull
        then (MedianFilter.iter w f (k + 1)).buffer
        else (MedianFilter.iter w f (k + 1)).buffer.take
          (MedianFilter.iter w f (k + 1)).index) := rfl
  rw [hout, hfull, hidx]
  rcases Nat.lt_or_ge (k + 1) w with hk | hk
  · -- ramp-up: the valid portion is literally the samples seen so far
    have hm : min (k + 1) w = k + 1 := by omega
    have hmod : (k + 1) % w = k + 1 := Nat.mod_eq_of_lt hk
    rw [if_neg (by simp [Nat.not_le.mpr hk]), hmod]
    have heq : (MedianFilter.iter w f (k + 1)).buffer.take (k + 1) =
        (List.range (min (k + 1) w)).map
          (fun t => f (k + 1 - min (k + 1) w + t)) := by
      apply List.ext_getElem
      · simp [hlen, hm]
      · intro t h1 h2
        have ht : t < k + 1 := by simp [hlen] at h1; omega
        rw [List.getElem_take, List.getElem_map, List.getElem_range]
        rw [← List.getD_eq_getElem _ 0 (by omega : t < (MedianFilter.iter w f (k + 1)).buffer.length)]
        rw [(hbuf t (by omega)).1 t (by omega) (by omega) (Nat.mod_eq_of_lt (by omega))]
        rw [hm]
        congr 1
        omega
    rw [heq]
  · -- steady state: the buffer is a rotation of the last w samples
    have hm : min (k + 1) w = w := by omega
    rw [if_pos (by simp [hk])]
    apply medianOfList_congr
    have hrot : (List.range (min (k + 1) w)).map
        (fun t => f (k + 1 - min (k + 1) w + t)) =
        (MedianFilter.iter w f (k + 1)).buffer.rotate (k + 1) := by
      apply List.ext_getElem
      · simp [hlen, hm]
      · intro t h1 h2
        have htw : t < w := by simp [hm] at h1; omega
        rw [List.getElem_map, List.getElem_range, List.getElem_rotate]
        have hb : (t + (k + 1)) % (MedianFilter.iter w f (k + 1)).buffer.length <
            (MedianFilter.iter w f (k + 1)).buffer.length := by
          rw [hlen]
          exact Nat.mod_lt _ (by omega)
        rw [← List.getD_eq_getElem _ 0 hb]
        rw [show (t + (k + 1)) % (MedianFilter.iter w f (k + 1)).buffer.length
            = (t + (k + 1)) % w from by rw [hlen], hm]
        have hj : (k + 1 - w + t) % w = (t + (k + 1)) % w := by
          conv_rhs => rw [show t + (k + 1) = (k + 1 - w + t) + w by omega]
          rw [Nat.add_mod_right]
        exact ((hbuf ((t + (k + 1)) % w) (Nat.mod_lt _ (by omega))).1
          (k + 1 - w + t) (by omega) (by omega) hj).symm
    rw [hrot]
    exact (List.rotate_perm _ _).symm

end MedianProofs

/-- Witness for claim C5: window size 3 fed 5, 1, 4, 2, 8; the fifth output
is the median of the last three samples 4, 2, 8, namely 4. -/
theorem medianFilter_spec_witness :
    MedianFilter.output 3 (fun j => (([5, 1, 4, 2, 8] : List ℚ).getD j 0)) 4 =
      medianOfList ((List.range (min (4 + 1) 3)).map
        (fun t => ([5, 1, 4, 2, 8] : List ℚ).getD (4 + 1 - min (4 + 1) 3 + t) 0)) ∧
    MedianFilter.output 3 (fun j => (([5, 1, 4, 2, 8] : List ℚ).getD j 0)) 4 = 4 :=
  ⟨medianFilter_spec 3 (by norm_num) _ 4, by decide⟩

/-! ## KalmanFilter (src/src/dsp/filter.cpp)

Scalar Kalman filter; float/double arithmetic is idealised as exact
rationals. -/

/-- State of KalmanFilter: noise parameters Q and R, current estimate and
covariance, and the construction-time values kept for reset(). -/
structure KalmanFilter where
  processNoise : ℚ
  measurementNoise : ℚ
  estimate : ℚ
  covariance : ℚ
  initialEstimate : ℚ
  initialCovariance : ℚ
  deriving DecidableEq, Repr

namespace KalmanFilter

/-- Constructor KalmanFilter(Q, R, initialEstimate, initialCovariance). -/
def create (processNoise measurementNoise initialEstimate initialCovariance : ℚ) :
    KalmanFilter :=
  ⟨processNoise, measurementNoise, initialEstimate, initialCovariance,
   initialEstimate, initialCovariance⟩

/-- KalmanFilter::update(measurement): predict P += Q; gain K = P/(P+R);
estimate += K (measurement - estimate); P *= (1 - K); return the estimate. -/
def update (st : KalmanFilter) (measurement : ℚ) : KalmanFilter × ℚ :=
  let cov1 := st.covariance + st.processNoise
  let kalmanGain := cov1 / (cov1 + st.measurementNoise)
  let est := st.estimate + kalmanGain * (measurement - st.estimate)
  let cov2 := (1 - kalmanGain) * cov1
  (⟨st.processNoise, st.measurementNoise, est, cov2,
    st.initialEstimate, st.initialCovariance⟩, est)

/-- KalmanFilter::predict(): the current estimate, no state change. -/
def predict (st : KalmanFilter) : ℚ := st.estimate

/-- KalmanFilter::reset(): restore the construction-time estimate and
covariance. -/
def reset (st : KalmanFilter) : KalmanFilter :=
  ⟨st.processNoise, st.measurementNoise, st.initialEstimate,
   st.initialCovariance, st.initialEstimate, st.initialCovariance⟩

/-- KalmanFilter::getEstimate(). -/
def getEstimate (st : KalmanFilter) : ℚ := st.estimate

/-- KalmanFilter::getCovariance(). -/
def getCovariance (st : KalmanFilter) : ℚ := st.covariance

/-- State after n update calls with the constant measurement c. -/
def iterConst (st : KalmanFilter) (c : ℚ) : ℕ → KalmanFilter
  | 0 => st
  | n + 1 => ((iterConst st c n).update c).1

end KalmanFilter

section KalmanProofs

/-- One Kalman update with Q > 0, R > 0 and a nonnegative covariance: the
noise parameters are unchanged, the new covariance is at least QR/(Q+R)
(in particular positive), and the distance of the estimate from the
measurement shrinks by at least the factor R/(Q+R) < 1. -/
lemma kalman_step (st : KalmanFilter) (c : ℚ)
    (hq : 0 < st.processNoise) (hr : 0 < st.measurementNoise)
    (hp : 0 ≤ st.covariance) :
    ((st.update c).1).processNoise = st.processNoise ∧
    ((st.update c).1).measurementNoise = st.measurementNoise ∧
    st.processNoise * st.measurementNoise /
      (st.processNoise + st.measurementNoise) ≤ ((st.update c).1).covariance ∧
    |((st.update c).1).estimate - c| ≤
      (st.measurementNoise / (st.processNoise + st.measurementNoise)) *
        |st.estimate - c| := by
  set q := st.processNoise with hqd
  set r := st.measurementNoise with hrd
  set p := st.covariance with hpd
  set e := st.estimate with hed
  have hden : 0 < p + q + r := by linarith
  have hqr : 0 < q + r := by linarith
  refine ⟨rfl, rfl, ?_, ?_⟩
  · -- covariance: (1 - K)(p + q) = r (p + q) / (p + q + r) ≥ q r / (q + r)
    have hcov : ((st.update c).1).covariance = r * (p + q) / (p + q + r) := by
      show (1 - (p + q) / ((p + q) + r)) * (p + q) = r * (p + q) / (p + q + r)
      field_simp
    rw [hcov, div_le_div_iff₀ hqr hden]
    nlinarith [mul_nonneg hp (mul_pos hr hr).le]
  · -- estimate: e + K (c - e) - c = (r / (p + q + r)) (e - c)
    have hest : ((st.update c).1).estimate - c = (r / (p + q + r)) * (e - c) := by
      show e + (p + q) / ((p + q) + r) * (c - e) - c = (r / (p + q + r)) * (e - c)
      field_simp
      ring
    rw [hest, abs_mul, abs_of_nonneg (le_of_lt (div_pos hr hden))]
    apply mul_le_mul_of_nonneg_right _ (abs_nonneg _)
    exact div_le_div_of_nonneg_left hr.le hqr (by linarith)

/-- Counterexample to claim C3 as stated: with Q = R = 1, initial estimate 0
and initial covariance 0, feeding the constant measurement 1, the covariance
after the second update (3/5) is larger than after the first (1/2), so the
covariance sequence is not strictly decreasing (and, being bounded below by
1/2, does not tend to 0). -/
theorem kalman_covariance_not_strictly_decreasing :
    0 < (1 : ℚ) ∧ 0 < (1 : ℚ) ∧
    (KalmanFilter.iterConst (KalmanFilter.create 1 1 0 0) 1 1).getCovariance
      = 1 / 2 ∧
    (KalmanFilter.iterConst (KalmanFilter.create 1 1 0 0) 1 2).getCovariance
      = 3 / 5 ∧
    (KalmanFilter.iterConst (KalmanFilter.create 1 1 0 0) 1 1).getCovariance <
      (KalmanFilter.iterConst (KalmanFilter.create 1 1 0 0) 1 2).getCovariance := by
  have e1 : KalmanFilter.iterConst (KalmanFilter.create 1 1 0 0) 1 1 =
      ((KalmanFilter.create 1 1 0 0).update 1).1 := rfl
  have e2 : KalmanFilter.iterConst (KalmanFilter.create 1 1 0 0) 1 2 =
      ((((KalmanFilter.create 1 1 0 0).update 1).1).update 1).1 := rfl
  have h1 : (KalmanFilter.iterConst (KalmanFilter.create 1 1 0 0) 1 1).getCovariance
      = 1 / 2 := by
    rw [e1]
    norm_num [KalmanFilter.update, KalmanFilter.create, KalmanFilter.getCovariance]
  have h2 : (KalmanFilter.iterConst (KalmanFilter.create 1 1 0 0) 1 2).getCovariance
      = 3 / 5 := by
    rw [e2]
    norm_num [KalmanFilter.update, KalmanFilter.create, KalmanFilter.getCovariance]
  exact ⟨by norm_num, by norm_num, h1, h2, by rw [h1, h2]; norm_num⟩

/-- Invariant of the constant-measurement iteration: the noise parameters are
preserved, the covariance stays nonnegative, and the estimate error contracts
geometrically with ratio R/(Q+R). -/
lemma kalman_iter_inv (q r e0 p0 c : ℚ)
    (hq : 0 < q) (hr : 0 < r) (hp0 : 0 ≤ p0) (n : ℕ) :
    (KalmanFilter.iterConst (KalmanFilter.create q r e0 p0) c n).processNoise = q ∧
    (KalmanFilter.iterConst (KalmanFilter.create q r e0 p0) c n).measurementNoise = r ∧
    0 ≤ (KalmanFilter.iterConst (KalmanFilter.create q r e0 p0) c n).covariance ∧
    |(KalmanFilter.iterConst (KalmanFilter.create q r e0 p0) c n).estimate - c| ≤
      (r / (q + r)) ^ n * |e0 - c| := by
  have hqr : (0:ℚ) < q + r := by linarith
  have hfac : (0:ℚ) ≤ r / (q + r) := le_of_lt (div_pos hr hqr)
  induction n with
  | zero =>
    exact ⟨rfl, rfl, hp0, by simp [KalmanFilter.iterConst, KalmanFilter.create]⟩
  | succ n ih =>
    obtain ⟨h1, h2, h3, h4⟩ := ih
    have hstep := kalman_step
      (KalmanFilter.iterConst (KalmanFilter.create q r e0 p0) c n) c
      (by rw [h1]; exact hq) (by rw [h2]; exact hr) h3
    rw [h1, h2] at hstep
    obtain ⟨hs1, hs2, hs3, hs4⟩ := hstep
    have hqrpos : (0:ℚ) < q * r / (q + r) := div_pos (mul_pos hq hr) hqr
    have hrw : KalmanFilter.iterConst (KalmanFilter.create q r e0 p0) c (n + 1) =
        ((KalmanFilter.iterConst (KalmanFilter.create q r e0 p0) c n).update c).1 := rfl
    rw [hrw]
    refine ⟨hs1, hs2, by linarith, ?_⟩
    calc |(((KalmanFilter.iterConst (KalmanFilter.create q r e0 p0) c n).update c).1).estimate - c|
        ≤ (r / (q + r)) *
          |(KalmanFilter.iterConst (KalmanFilter.create q r e0 p0) c n).estimate - c| := hs4
      _ ≤ (r / (q + r)) * ((r / (q + r)) ^ n * |e0 - c|) :=
          mul_le_mul_of_nonneg_left h4 hfac
      _ = (r / (q + r)) ^ (n + 1) * |e0 - c| := by ring

/-- Claim C3 (amended): for Q, R > 0 and a nonnegative initial covariance,
under a constant measurement stream c the estimate converges monotonically to
c - the distance to c contracts by the fixed factor R/(Q+R) < 1 on every
update, hence is bounded by a geometric sequence - while the covariance, from
the first update onward, stays at least QR/(Q+R) > 0: it does not tend to 0
and need not be strictly decreasing. -/
theorem kalman_constant_stream (q r e0 p0 c : ℚ)
    (hq : 0 < q) (hr : 0 < r) (hp0 : 0 ≤ p0) (n : ℕ) :
    |(KalmanFilter.iterConst (KalmanFilter.create q r e0 p0) c (n + 1)).getEstimate - c| ≤
      (r / (q + r)) *
        |(KalmanFilter.iterConst (KalmanFilter.create q r e0 p0) c n).getEstimate - c| ∧
    r / (q + r) < 1 ∧
    |(KalmanFilter.iterConst (KalmanFilter.create q r e0 p0) c n).getEstimate - c| ≤
      (r / (q + r)) ^ n * |e0 - c| ∧
    0 < q * r / (q + r) ∧
    q * r / (q + r) ≤
      (KalmanFilter.iterConst (KalmanFilter.create q r e0 p0) c (n + 1)).getCovariance := by
  have hqr : (0:ℚ) < q + r := by linarith
  obtain ⟨h1, h2, h3, h4⟩ := kalman_iter_inv q r e0 p0 c hq hr hp0 n
  have hstep := kalman_step
    (KalmanFilter.iterConst (KalmanFilter.create q r e0 p0) c n) c
    (by rw [h1]; exact hq) (by rw [h2]; exact hr) h3
  rw [h1, h2] at hstep
  obtain ⟨_, _, hs3, hs4⟩ := hstep
  exact ⟨hs4, (div_lt_one hqr).mpr (by linarith), h4,
    div_pos (mul_pos hq hr) hqr, hs3⟩

/-- Witness for the amended claim C3 at Q = R = 1, initial estimate 0,
initial covariance 1, constant measurement 5: the covariance after two
updates is 5/8, which indeed stays above QR/(Q+R) = 1/2, and the contraction
factor is 1/2 < 1. -/
theorem kalman_constant_stream_witness :
    (0:ℚ) < 1 * 1 / (1 + 1) ∧ (1:ℚ) / (1 + 1) < 1 ∧
    (1:ℚ) * 1 / (1 + 1) ≤
      (KalmanFilter.iterConst (KalmanFilter.create 1 1 0 1) 5 2).getCovariance ∧
    (KalmanFilter.iterConst (KalmanFilter.create 1 1 0 1) 5 2).getCovariance = 5 / 8 :=
  ⟨(kalman_constant_stream 1 1 0 1 5 (by norm_num) (by norm_num) (by norm_num) 1).2.2.2.1,
   (kalman_constant_stream 1 1 0 1 5 (by norm_num) (by norm_num) (by norm_num) 1).2.1,
   (kalman_constant_stream 1 1 0 1 5 (by norm_num) (by norm_num) (by norm_num) 1).2.2.2.2,
   by
    have e2 : KalmanFilter.iterConst (KalmanFilter.create 1 1 0 1) 5 2 =
        ((((KalmanFilter.create 1 1 0 1).update 5).1).update 5).1 := rfl
    rw [e2]
    norm_num [KalmanFilter.update, KalmanFilter.create, KalmanFilter.getCovariance]⟩

end KalmanProofs

/-! ## Single-pole IIR filters and the filter union
(src/src/dsp/filter.cpp, src/include/fmus/dsp/filter.h)

Only the state and the members used by RealTimeProcessor (process, reset,
getOrder) are embedded; the constructors from a cutoff frequency involve exp
and play no role in the chain claims. The virtual Filter hierarchy is
embedded as a closed union of the concrete filter kinds of the repository
(KalmanFilter is not a Filter subclass and cannot enter a chain). -/

/-- State of LowPassFilter: smoothing coefficient, previous output, order. -/
structure LowPassFilter where
  alpha : ℚ
  previousOutput : ℚ
  order : ℕ
  deriving DecidableEq, Repr

namespace LowPassFilter

/-- LowPassFilter::process(T): y[n] = alpha x[n] + (1 - alpha) y[n-1]. -/
def process (st : LowPassFilter) (input : ℚ) : LowPassFilter × ℚ :=
  let out := st.alpha * input + (1 - st.alpha) * st.previousOutput
  (⟨st.alpha, out, st.order⟩, out)

/-- LowPassFilter::reset(): zero the previous output. -/
def reset (st : LowPassFilter) : LowPassFilter := ⟨st.alpha, 0, st.order⟩

/-- LowPassFilter::getOrder(). -/
def getOrder (st : LowPassFilter) : ℕ := st.order

end LowPassFilter

/-- State of HighPassFilter: coefficient, previous input and output, order. -/
structure HighPassFilter where
  alpha : ℚ
  previousInput : ℚ
  previousOutput : ℚ
  order : ℕ
  deriving DecidableEq, Repr

namespace HighPassFilter

/-- HighPassFilter::process(T): y[n] = alpha (y[n-1] + x[n] - x[n-1]). -/
def process (st : HighPassFilter) (input : ℚ) : HighPassFilter × ℚ :=
  let out := st.alpha * (st.previousOutput + input - st.previousInput)
  (⟨st.alpha, input, out, st.order⟩, out)

/-- HighPassFilter::reset(): zero previous input and output. -/
def reset (st : HighPassFilter) : HighPassFilter := ⟨st.alpha, 0, 0, st.order⟩

/-- HighPassFilter::getOrder(). -/
def getOrder (st : HighPassFilter) : ℕ := st.order

end HighPassFilter

/-- State of BandPassFilter: the cascaded high-pass and low-pass members and
the declared order (the members each received half of it at construction). -/
structure BandPassFilter where
  highPass : HighPassFilter
  lowPass : LowPassFilter
  order : ℕ
  deriving DecidableEq, Repr

namespace BandPassFilter

/-- BandPassFilter::process(T): high-pass first, then low-pass. -/
def process (st : BandPassFilter) (input : ℚ) : BandPassFilter × ℚ :=
  let hp := st.highPass.process input
  let lp := st.lowPass.process hp.2
  (⟨hp.1, lp.1, st.order⟩, lp.2)

/-- BandPassFilter::reset(): reset both members. -/
def reset (st : BandPassFilter) : BandPassFilter :=
  ⟨st.highPass.reset, st.lowPass.reset, st.order⟩

/-- BandPassFilter::getOrder(): the declared order. -/
def getOrder (st : BandPassFilter) : ℕ := st.order

end BandPassFilter

/-- Closed union of the concrete Filter subclasses of the repository, playing
the role of a shared_ptr to the abstract Filter interface. -/
inductive AnyFilter
  | lowPass : LowPassFilter → AnyFilter
  | highPass : HighPassFilter → AnyFilter
  | bandPass : BandPassFilter → AnyFilter
  | movingAverage : MovingAverageFilter → AnyFilter
  | median : MedianFilter → AnyFilter
  deriving DecidableEq, Repr

namespace AnyFilter

/-- Virtual dispatch of Filter::process(T). -/
def process : AnyFilter → ℚ → AnyFilter × ℚ
  | lowPass st, x => let r := st.process x; (lowPass r.1, r.2)
  | highPass st, x => let r := st.process x; (highPass r.1, r.2)
  | bandPass st, x => let r := st.process x; (bandPass r.1, r.2)
  | movingAverage st, x => let r := st.process x; (movingAverage r.1, r.2)
  | median st, x => let r := st.process x; (median r.1, r.2)

/-- Virtual dispatch of Filter::reset(). -/
def reset : AnyFilter → AnyFilter
  | lowPass st => lowPass st.reset
  | highPass st => highPass st.reset
  | bandPass st => bandPass st.reset
  | movingAverage st => movingAverage st.reset
  | median st => median st.reset

/-- Virtual dispatch of Filter::getOrder(). -/
def getOrder : AnyFilter → ℕ
  | lowPass st => st.getOrder
  | highPass st => st.getOrder
  | bandPass st => st.getOrder
  | movingAverage st => st.getOrder
  | median st => st.getOrder

end AnyFilter

/-! ## RealTimeProcessor (src/src/dsp/dsp.cpp) -/

/-- State of RealTimeProcessor: configuration, the filter chain, and the
tracked aggregate latency. -/
structure RealTimeProcessor where
  bufferSize : ℕ
  sampleRate : ℚ
  filters : List AnyFilter
  latency : ℕ
  deriving DecidableEq, Repr

namespace RealTimeProcessor

/-- Constructor RealTimeProcessor(bufferSize, sampleRate): empty chain, zero
latency. -/
def create (bufferSize : ℕ) (sampleRate : ℚ) : RealTimeProcessor :=
  ⟨bufferSize, sampleRate, [], 0⟩

/-- RealTimeProcessor::addFilter: a null pointer (None) is rejected with
InvalidArgument and changes nothing; otherwise the filter is appended and its
order added to the tracked latency. -/
def addFilter (p : RealTimeProcessor) (f : Option AnyFilter) :
    RealTimeProcessor × CResult Unit :=
  match f with
  | none => (p, makeError Unit .invalidArgument "Filter pointer is null")
  | some flt =>
    (⟨p.bufferSize, p.sampleRate, p.filters ++ [flt], p.latency + flt.getOrder⟩,
     makeOk ())

/-- RealTimeProcessor::clearFilters(): drop the chain and zero the latency. -/
def clearFilters (p : RealTimeProcessor) : RealTimeProcessor :=
  ⟨p.bufferSize, p.sampleRate, [], 0⟩

/-- RealTimeProcessor::processSample: feed the sample through every filter in
insertion order, each filter updating its own state. -/
def processSample (p : RealTimeProcessor) (x : ℚ) : RealTimeProcessor × ℚ :=
  let step := p.filters.foldl
    (fun (acc : List AnyFilter × ℚ) flt =>
      let r := flt.process acc.2
      (acc.1 ++ [r.1], r.2)) ([], x)
  (⟨p.bufferSize, p.sampleRate, step.1, p.latency⟩, step.2)

/-- RealTimeProcessor::processBuffer: processSample over each element in
order, state carrying across elements. -/
def processBuffer (p : RealTimeProcessor) (xs : List ℚ) :
    RealTimeProcessor × List ℚ :=
  xs.foldl
    (fun (acc : RealTimeProcessor × List ℚ) x =>
      let r := acc.1.processSample x
      (r.1, acc.2 ++ [r.2])) (p, [])

/-- RealTimeProcessor::reset(): reset every member filter; the chain and the
latency are untouched. -/
def reset (p : RealTimeProcessor) : RealTimeProcessor :=
  ⟨p.bufferSize, p.sampleRate, p.filters.map AnyFilter.reset, p.latency⟩

/-- RealTimeProcessor::getLatency(). -/
def getLatency (p : RealTimeProcessor) : ℕ := p.latency

/-- The public mutating calls of RealTimeProcessor. -/
inductive Op
  | addFilter (f : Option AnyFilter)
  | clearFilters
  | processSample (x : ℚ)
  | processBuffer (xs : List ℚ)
  | reset

/-- One public call. -/
def step (p : RealTimeProcessor) : Op → RealTimeProcessor
  | .addFilter f => (p.addFilter f).1
  | .clearFilters => p.clearFilters
  | .processSample x => (p.processSample x).1
  | .processBuffer xs => (p.processBuffer xs).1
  | .reset => p.reset

/-- State after an arbitrary sequence of public calls. -/
def run (p : RealTimeProcessor) (ops : List Op) : RealTimeProcessor :=
  ops.foldl step p

end RealTimeProcessor

section RealTimeProcessorProofs

/-- Processing a sample does not change a filter kind or its declared order. -/
lemma anyFilter_process_getOrder (flt : AnyFilter) (x : ℚ) :
    ((flt.process x).1).getOrder = flt.getOrder := by
  cases flt <;>
    simp [AnyFilter.process, AnyFilter.getOrder, LowPassFilter.process,
      LowPassFilter.getOrder, HighPassFilter.process, HighPassFilter.getOrder,
      BandPassFilter.process, BandPassFilter.getOrder,
      MovingAverageFilter.process, MovingAverageFilter.getOrder,
      MedianFilter.process, MedianFilter.getOrder]

/-- Resetting a filter does not change its kind or declared order. -/
lemma anyFilter_reset_getOrder (flt : AnyFilter) :
    (flt.reset).getOrder = flt.getOrder := by
  cases flt <;>
    simp [AnyFilter.reset, AnyFilter.getOrder, LowPassFilter.reset,
      LowPassFilter.getOrder, HighPassFilter.reset, HighPassFilter.getOrder,
      BandPassFilter.reset, BandPassFilter.getOrder,
      MovingAverageFilter.reset, MovingAverageFilter.getOrder,
      MedianFilter.reset, MedianFilter.getOrder]

/-- The processSample fold preserves the list of declared orders. -/
lemma processSample_fold_orders (fs : List AnyFilter) (acc : List AnyFilter) (x : ℚ) :
    ((fs.foldl (fun (acc : List AnyFilter × ℚ) flt =>
        let r := flt.process acc.2
        (acc.1 ++ [r.1], r.2)) (acc, x)).1).map AnyFilter.getOrder =
      acc.map AnyFilter.getOrder ++ fs.map AnyFilter.getOrder := by
  induction fs generalizing acc x with
  | nil => simp
  | cons f fs ih =>
    simp only [List.foldl_cons, List.map_cons]
    rw [ih]
    simp [anyFilter_process_getOrder]

/-- The latency invariant holds in a state and is preserved by every public
call. -/
lemma step_preserves_latency_inv (p : RealTimeProcessor)
    (h : p.latency = (p.filters.map AnyFilter.getOrder).sum) (op : RealTimeProcessor.Op) :
    (p.step op).latency = ((p.step op).filters.map AnyFilter.getOrder).sum := by
  cases op with
  | addFilter f =>
    cases f with
    | none => simpa [RealTimeProcessor.step, RealTimeProcessor.addFilter] using h
    | some flt =>
      simp [RealTimeProcessor.step, RealTimeProcessor.addFilter, h]
  | clearFilters => simp [RealTimeProcessor.step, RealTimeProcessor.clearFilters]
  | processSample x =>
    simp only [RealTimeProcessor.step, RealTimeProcessor.processSample]
    rw [processSample_fold_orders]
    simpa using h
  | processBuffer xs =>
    simp only [RealTimeProcessor.step, RealTimeProcessor.processBuffer]
    -- fold over the samples, each step a processSample
    have key : ∀ (xs : List ℚ) (q : RealTimeProcessor) (out : List ℚ),
        q.latency = (q.filters.map AnyFilter.getOrder).sum →
        (xs.foldl (fun (acc : RealTimeProcessor × List ℚ) x =>
            let r := acc.1.processSample x
            (r.1, acc.2 ++ [r.2])) (q, out)).1.latency =
          (((xs.foldl (fun (acc : RealTimeProcessor × List ℚ) x =>
            let r := acc.1.processSample x
            (r.1, acc.2 ++ [r.2])) (q, out)).1).filters.map AnyFilter.getOrder).sum := by
      intro xs
      induction xs with
      | nil => intro q out hq; simpa using hq
      | cons x xs ih =>
        intro q out hq
        simp only [List.foldl_cons]
        apply ih
        simp only [RealTimeProcessor.processSample]
        rw [processSample_fold_orders]
        simpa using hq
    exact key xs p [] h
  | reset =>
    simp only [RealTimeProcessor.step, RealTimeProcessor.reset]
    rw [List.map_map]
    have : AnyFilter.getOrder ∘ AnyFilter.reset = AnyFilter.getOrder := by
      funext flt
      exact anyFilter_reset_getOrder flt
    rw [this]
    simpa using h

/-- Claim C8: in every state reachable from a fresh RealTimeProcessor by any
sequence of addFilter, clearFilters, processSample, processBuffer and reset
calls, getLatency equals the sum of getOrder over the filters in the chain;
addFilter with a non-null filter appends it and adds its order to the
latency; reset resets every member filter, changing neither the chain
membership nor the latency. -/
theorem realTimeProcessor_latency_invariant (bufferSize : ℕ) (sampleRate : ℚ)
    (ops : List RealTimeProcessor.Op) :
    (((RealTimeProcessor.create bufferSize sampleRate).run ops).getLatency =
      ((((RealTimeProcessor.create bufferSize sampleRate).run ops)).filters.map
        AnyFilter.getOrder).sum) ∧
    (∀ p : RealTimeProcessor, ∀ flt : AnyFilter,
      (p.addFilter (some flt)).1.filters = p.filters ++ [flt] ∧
      (p.addFilter (some flt)).1.latency = p.latency + flt.getOrder) ∧
    (∀ p : RealTimeProcessor,
      p.reset.filters = p.filters.map AnyFilter.reset ∧
      p.reset.latency = p.latency ∧
      p.reset.filters.map AnyFilter.getOrder = p.filters.map AnyFilter.getOrder) := by
  refine ⟨?_, ?_, ?_⟩
  · -- invariant along the run, by induction over the call sequence
    have base : (RealTimeProcessor.create bufferSize sampleRate).latency =
        (((RealTimeProcessor.create bufferSize sampleRate)).filters.map
          AnyFilter.getOrder).sum := by
      simp [RealTimeProcessor.create]
    have gen : ∀ (ops : List RealTimeProcessor.Op) (p : RealTimeProcessor),
        p.latency = (p.filters.map AnyFilter.getOrder).sum →
        (p.run ops).latency = ((p.run ops).filters.map AnyFilter.getOrder).sum := by
      intro ops
      induction ops with
      | nil => intro p hp; simpa [RealTimeProcessor.run] using hp
      | cons op ops ih =>
        intro p hp
        simp only [RealTimeProcessor.run, List.foldl_cons]
        exact ih (p.step op) (step_preserves_latency_inv p hp op)
    exact gen ops _ base
  · intro p flt
    exact ⟨rfl, rfl⟩
  · intro p
    refine ⟨rfl, rfl, ?_⟩
    simp only [RealTimeProcessor.reset]
    rw [List.map_map]
    congr 1
    funext flt
    exact anyFilter_reset_getOrder flt

end RealTimeProcessorProofs

/-! ## FFT engine (src/src/dsp/fft.cpp, src/include/fmus/dsp/fft.h)

The transforms are embedded over ℂ with exact real arithmetic. The in-place
array is embedded as a total function ℕ → ℂ read off on List.range. -/

namespace FFT

/-- WindowType enum (fft.h). -/
inductive WindowType
  | none
  | hanning
  | hamming
  | blackman
  | kaiser
  | gaussian
  | tukey
  deriving DecidableEq, Repr

/-- Model of std::vector::resize(targetSize, 0): truncate or right-pad with
zeros. FFT::zeroPad is exactly this (it also truncates when targetSize is
below the signal length, which happens when nextPowerOf2 wraps to 0). -/
def zeroPad {α : Type} [Zero α] (signal : List α) (targetSize : ℕ) : List α :=
  signal.take targetSize ++ List.replicate (targetSize - signal.length) 0

/-- FFT::generateWindow(size, window, parameter): the coefficient formulas of
the source, with the source defaults for a zero parameter. The source
divides by (size - 1) in float arithmetic; that real division is kept as
written (for size = 1 the source divides 0 by 0; Lean real division then
yields 0). -/
noncomputable def generateWindow (size : ℕ) (window : WindowType) (parameter : ℝ) : List ℝ :=
  match window with
  | .none => List.replicate size 1
  | .hanning =>
      (List.range size).map fun (i : ℕ) =>
        (1 / 2) * (1 - Real.cos (2 * Real.pi * i / ((size : ℝ) - 1)))
  | .hamming =>
      (List.range size).map fun (i : ℕ) =>
        (54 / 100) - (46 / 100) * Real.cos (2 * Real.pi * i / ((size : ℝ) - 1))
  | .blackman =>
      (List.range size).map fun (i : ℕ) =>
        let n := (i : ℝ) / ((size : ℝ) - 1)
        (42 / 100) - (1 / 2) * Real.cos (2 * Real.pi * n) +
          (8 / 100) * Real.cos (4 * Real.pi * n)
  | .kaiser =>
      let p := if parameter = 0 then 5 else parameter
      (List.range size).map fun (i : ℕ) =>
        let n := (i : ℝ) / ((size : ℝ) - 1)
        let arg := p * Real.sqrt (1 - (2 * n - 1) * (2 * n - 1))
        Real.exp arg / Real.exp p
  | .gaussian =>
      let p := if parameter = 0 then 2 / 5 else parameter
      (List.range size).map fun (i : ℕ) =>
        let n := ((i : ℝ) - ((size : ℝ) - 1) / 2) / (((size : ℝ) - 1) / 2)
        Real.exp (-(1 / 2) * (n / p) * (n / p))
  | .tukey =>
      let p := if parameter = 0 then 1 / 2 else parameter
      (List.range size).map fun (i : ℕ) =>
        let n := (i : ℝ) / ((size : ℝ) - 1)
        if n < p / 2 then
          (1 / 2) * (1 + Real.cos (Real.pi * (2 * n / p - 1)))
        else if n > 1 - p / 2 then
          (1 / 2) * (1 + Real.cos (Real.pi * (2 * n / p - 2 / p + 1)))
        else 1

/-- FFT::applyWindow: elementwise product with the generated coefficients. -/
noncomputable def applyWindow (signal : List ℝ) (window : WindowType) (parameter : ℝ) : List ℝ :=
  List.zipWith (fun s c => s * c) signal (generateWindow signal.length window parameter)

/-- Bit-reversal of the low k bits of p. FFT::bitReverse permutes the array
in place by swapping positions i and bitRev k i (each unordered pair once,
via the carry-propagation counter); the net effect on the array is the
permutation p maps to data[bitRev k p], which is what is embedded. -/
def bitRev : ℕ → ℕ → ℕ
  | 0, _ => 0
  | k + 1, p => p % 2 * 2 ^ k + bitRev k (p / 2)

/-- Twiddle factor wlen = (cos angle, sin angle) with
angle = (inverse ? 2 : -2) pi / len, as in radix2FFT. -/
noncomputable def twiddle (inverse : Bool) (len : ℕ) : ℂ :=
  ⟨Real.cos ((if inverse then 2 else -2) * Real.pi / len),
   Real.sin ((if inverse then 2 else -2) * Real.pi / len)⟩

/-- One butterfly stage of radix2FFT for block length len: position p with
j = p mod len gets u + v (lower half) or u - v (upper half), where
u = data[i+j], v = data[i+j+len/2] * w and the running w equals wlen^j after
j inner iterations. Each inner iteration writes only the pair it just read,
so the sequential loop acts as this pointwise map. -/
noncomputable def stageMap (inverse : Bool) (len : ℕ) (d : ℕ → ℂ) : ℕ → ℂ := fun p =>
  let j := p % len
  if j < len / 2 then d p + d (p + len / 2) * twiddle inverse len ^ j
  else d (p - len / 2) - d p * twiddle inverse len ^ (j - len / 2)

/-- The stage loop of radix2FFT: len runs through 2, 4, ..., 2^s. -/
noncomputable def applyStages (inverse : Bool) : ℕ → (ℕ → ℂ) → ℕ → ℂ
  | 0, d => d
  | s + 1, d => stageMap inverse (2 ^ (s + 1)) (applyStages inverse s d)

/-- FFT::radix2FFT(data, inverse): on a power-of-two length n = 2^k,
bit-reverse, run the k butterfly stages, and scale by 1/n for the inverse
transform; on any other length, log an error and return the data
unchanged. -/
noncomputable def radix2FFT (data : List ℂ) (inverse : Bool) : List ℂ :=
  let n := data.length
  if isValidSize n then
    let k := Nat.log2 n
    let d0 : ℕ → ℂ := fun p => data.getD (bitRev k p) 0
    let dk := applyStages inverse k d0
    let out := (List.range n).map dk
    if inverse then out.map (fun z => z * (1 / (n : ℂ))) else out
  else data

/-- FFTResult (fft.h): the complex spectrum plus bookkeeping. -/
structure FFTResult where
  data : List ℂ
  sampleRate : ℝ
  frequencyResolution : ℝ
  size : ℕ
  windowUsed : WindowType

/-- FFT::forward on a real signal: reject empty input; pad to the next power
of two of the uint32-cast length; multiply by the window coefficients unless
the window is None; lift to complex; transform. -/
noncomputable def forward (input : List ℝ) (sampleRate : ℝ) (window : WindowType) :
    CResult FFTResult :=
  if input.isEmpty then
    makeError FFTResult .invalidArgument "Input signal is empty"
  else
    let fftSize := nextPowerOf2 (input.length % 2 ^ 32)
    let paddedInput := zeroPad input fftSize
    let windowed :=
      if window ≠ WindowType.none then
        List.zipWith (fun s c => s * c) paddedInput
          (generateWindow fftSize window 0)
      else paddedInput
    let complexData : List ℂ := windowed.map (fun x => ⟨x, 0⟩)
    let transformed := radix2FFT complexData false
    makeOk ⟨transformed, sampleRate, sampleRate / (fftSize : ℝ), fftSize, window⟩

/-- FFT::forward on a complex signal: as for the real overload, with the
window coefficients multiplied in as complex scalars. -/
noncomputable def forwardComplex (input : List ℂ) (sampleRate : ℝ) (window : WindowType) :
    CResult FFTResult :=
  if input.isEmpty then
    makeError FFTResult .invalidArgument "Input signal is empty"
  else
    let fftSize := nextPowerOf2 (input.length % 2 ^ 32)
    let paddedInput := zeroPad input fftSize
    let windowed :=
      if window ≠ WindowType.none then
        List.zipWith (fun (s : ℂ) (c : ℝ) => s * (c : ℂ)) paddedInput
          (generateWindow fftSize window 0)
      else paddedInput
    let transformed := radix2FFT windowed false
    makeOk ⟨transformed, sampleRate, sampleRate / (fftSize : ℝ), fftSize, window⟩

/-- FFT::inverse: reject empty input; inverse-transform; keep real parts. -/
noncomputable def inverse (input : List ℂ) : CResult (List ℝ) :=
  if input.isEmpty then
    makeError (List ℝ) .invalidArgument "Input is empty"
  else
    makeOk ((radix2FFT input true).map Complex.re)

/-- FFT::inverseComplex: reject empty input; inverse-transform. -/
noncomputable def inverseComplex (input : List ℂ) : CResult (List ℂ) :=
  if input.isEmpty then
    makeError (List ℂ) .invalidArgument "Input is empty"
  else
    makeOk (radix2FFT input true)

end FFT

section FFTPadding

/-- Every power of two passes isValidSize. -/
lemma isValidSize_two_pow (j : ℕ) : FFT.isValidSize (2 ^ j) = true := by
  have hand : 2 ^ j &&& (2 ^ j - 1) = 0 := by
    apply Nat.eq_of_testBit_eq
    intro i
    rw [Nat.testBit_and, Nat.testBit_two_pow_sub_one, Nat.zero_testBit]
    rcases eq_or_ne j i with rfl | hij
    · simp
    · simp [Nat.testBit_two_pow_of_ne hij]
  have hpos : 0 < 2 ^ j := Nat.pos_pow_of_pos j (by norm_num)
  simp [FFT.isValidSize, hand, hpos]

/-- radix2FFT preserves the length of the data. -/
lemma radix2FFT_length (data : List ℂ) (inv : Bool) :
    (FFT.radix2FFT data inv).length = data.length := by
  simp only [FFT.radix2FFT]
  by_cases h : FFT.isValidSize data.length
  · rw [if_pos h]
    cases inv <;> simp
  · rw [if_neg h]

/-- zeroPad produces exactly the target length when not truncating. -/
lemma zeroPad_length {α : Type} [Zero α] (l : List α) (t : ℕ) (h : l.length ≤ t) :
    (FFT.zeroPad l t).length = t := by
  simp [FFT.zeroPad]
  omega

/-- generateWindow always returns exactly size coefficients. -/
lemma generateWindow_length (size : ℕ) (w : FFT.WindowType) (p : ℝ) :
    (FFT.generateWindow size w p).length = size := by
  cases w <;>
    simp only [FFT.generateWindow, List.length_map, List.length_range,
      List.length_replicate]

/-- Counterexample to claim C2 as stated: FFT::inverse on the length-3 input
[1, 0, 0] returns Ok with the input unchanged (radix2FFT silently skipped the
transform), length 3, whereas padding to nextPowerOf2 3 = 4 and transforming
would return 4 samples. -/
theorem inverse_skips_non_power_of_two :
    FFT.inverse [(1 : ℂ), 0, 0] = makeOk [(1 : ℝ), 0, 0] ∧
    FFT.inverseComplex [(1 : ℂ), 0, 0] = makeOk [(1 : ℂ), 0, 0] ∧
    FFT.nextPowerOf2 3 = 4 := by
  have h3 : FFT.isValidSize 3 = false := by decide
  refine ⟨?_, ?_, by decide⟩
  · simp only [FFT.inverse, FFT.radix2FFT, List.length_cons, List.length_nil]
    norm_num [h3, makeOk, Complex.one_re, Complex.zero_re]
  · simp only [FFT.inverseComplex, FFT.radix2FFT, List.length_cons, List.length_nil]
    norm_num [h3, makeOk]

/-- Claim C2 (amended): both forward overloads zero-pad any non-empty input
(of non-wrapping length) to the next power of two and transform it without
error; but the inverse entry points do not pad: on a non-power-of-two
length radix2FFT returns the data unchanged, so inverse and inverseComplex
return Ok with the untransformed input - the transform is silently
skipped. -/
theorem fft_entry_points_padding (input : List ℂ) (inputR : List ℝ)
    (inputC : List ℂ) (sr : ℝ) (w : FFT.WindowType) (hne : input ≠ [])
    (hnv : FFT.isValidSize input.length = false)
    (hneR : inputR ≠ []) (hlenR : inputR.length ≤ 2 ^ 31)
    (hneC : inputC ≠ []) (hlenC : inputC.length ≤ 2 ^ 31) :
    FFT.inverse input = makeOk (input.map Complex.re) ∧
    FFT.inverseComplex input = makeOk input ∧
    (∃ r : FFT.FFTResult, FFT.forward inputR sr w = makeOk r ∧
      r.size = FFT.nextPowerOf2 inputR.length ∧
      r.data.length = FFT.nextPowerOf2 inputR.length ∧
      inputR.length ≤ r.size) ∧
    (∃ rc : FFT.FFTResult, FFT.forwardComplex inputC sr w = makeOk rc ∧
      rc.size = FFT.nextPowerOf2 inputC.length ∧
      rc.data.length = FFT.nextPowerOf2 inputC.length ∧
      inputC.length ≤ rc.size) := by
  have hemp : input.isEmpty = false := by simp [List.isEmpty_iff, hne]
  refine ⟨?_, ?_, ?_, ?_⟩
  · simp only [FFT.inverse, hemp, Bool.false_eq_true, if_false, FFT.radix2FFT,
      hnv, if_neg]
  · simp only [FFT.inverseComplex, hemp, Bool.false_eq_true, if_false,
      FFT.radix2FFT, hnv, if_neg]
  · have hempR : inputR.isEmpty = false := by simp [List.isEmpty_iff, hneR]
    have hlen1 : 1 ≤ inputR.length := by
      rcases inputR with _ | _
      · exact absurd rfl hneR
      · simp
    have hmod : inputR.length % 2 ^ 32 = inputR.length :=
      Nat.mod_eq_of_lt (by calc inputR.length ≤ 2 ^ 31 := hlenR
        _ < 2 ^ 32 := by norm_num)
    obtain ⟨⟨j, hpow⟩, hge, _⟩ := nextPowerOf2_correct inputR.length hlen1 hlenR
    simp only [FFT.forward, hempR, Bool.false_eq_true, if_false, hmod]
    refine ⟨_, rfl, rfl, ?_, ?_⟩
    · -- the transform preserves the padded length
      rw [radix2FFT_length, List.length_map]
      by_cases hw : w ≠ FFT.WindowType.none
      · rw [if_pos hw, List.length_zipWith, generateWindow_length,
          zeroPad_length inputR _ hge]
        simp
      · rw [if_neg hw, zeroPad_length inputR _ hge]
    · exact hge
  · have hempC : inputC.isEmpty = false := by simp [List.isEmpty_iff, hneC]
    have hlen1 : 1 ≤ inputC.length := by
      rcases inputC with _ | _
      · exact absurd rfl hneC
      · simp
    have hmod : inputC.length % 2 ^ 32 = inputC.length :=
      Nat.mod_eq_of_lt (by calc inputC.length ≤ 2 ^ 31 := hlenC
        _ < 2 ^ 32 := by norm_num)
    obtain ⟨⟨j, hpow⟩, hge, _⟩ := nextPowerOf2_correct inputC.length hlen1 hlenC
    simp only [FFT.forwardComplex, hempC, Bool.false_eq_true, if_false, hmod]
    refine ⟨_, rfl, rfl, ?_, ?_⟩
    · -- the transform preserves the padded length
      rw [radix2FFT_length]
      by_cases hw : w ≠ FFT.WindowType.none
      · rw [if_pos hw, List.length_zipWith, generateWindow_length,
          zeroPad_length inputC _ hge]
        simp
      · rw [if_neg hw, zeroPad_length inputC _ hge]
    · exact hge

end FFTPadding

/-- Witness for the amended claim C2 at the length-3 inputs [1, 0, 0]:
inverse returns the untransformed real parts, and both forward overloads
return a padded result of size nextPowerOf2 3 = 4. -/
theorem fft_entry_points_padding_witness :
    FFT.inverse [(1 : ℂ), 0, 0] = makeOk (([(1 : ℂ), 0, 0]).map Complex.re) ∧
    (∃ r : FFT.FFTResult, FFT.forward [(1 : ℝ), 0, 0] 1 FFT.WindowType.none = makeOk r ∧
      r.size = FFT.nextPowerOf2 3 ∧ r.data.length = FFT.nextPowerOf2 3 ∧
      3 ≤ r.size) ∧
    (∃ rc : FFT.FFTResult,
      FFT.forwardComplex [(1 : ℂ), 0, 0] 1 FFT.WindowType.none = makeOk rc ∧
      rc.size = FFT.nextPowerOf2 3 ∧ rc.data.length = FFT.nextPowerOf2 3 ∧
      3 ≤ rc.size) := by
  have h := fft_entry_points_padding [(1 : ℂ), 0, 0] [(1 : ℝ), 0, 0]
    [(1 : ℂ), 0, 0] 1 FFT.WindowType.none (by simp) (by decide) (by simp)
    (by norm_num) (by simp) (by norm_num)
  exact ⟨h.1, h.2.2.1, h.2.2.2⟩

/-! ## Spectral analysis: findPeakFrequency (src/src/dsp/fft.cpp) -/

namespace FFT

/-- FFTResult::getMagnitude(): elementwise complex magnitude. -/
noncomputable def FFTResult.getMagnitude (r : FFTResult) : List ℝ :=
  r.data.map Complex.abs

/-- FFTResult::getFrequencyBins(): bin i maps to i * frequencyResolution. -/
noncomputable def FFTResult.getFrequencyBins (r : FFTResult) : List ℝ :=
  (List.range r.data.length).map fun (i : ℕ) => (i : ℝ) * r.frequencyResolution

end FFT

namespace SpectralAnalysis

open FFT

/-- SpectralAnalysis::findPeakFrequency: reject an empty result; replace a
negative maxFreq by the Nyquist frequency sampleRate/2; linearly scan the
bins whose frequency lies in [minFreq, maxFreq], tracking the first bin of
maximal magnitude; report DataError when the tracked peak magnitude is still
0 at the end. -/
noncomputable def findPeakFrequency (fftResult : FFTResult)
    (minFreq maxFreq : ℝ) : CResult ℝ :=
  if fftResult.data.isEmpty then
    makeError ℝ .invalidArgument "FFT result is empty"
  else
    let magnitude := fftResult.getMagnitude
    let frequencies := fftResult.getFrequencyBins
    let maxF := if maxFreq < 0 then fftResult.sampleRate / 2 else maxFreq
    let scan := (List.range (min magnitude.length frequencies.length)).foldl
      (fun (acc : ℝ × ℝ) i =>
        if minFreq ≤ frequencies.getD i 0 ∧ frequencies.getD i 0 ≤ maxF then
          (if acc.2 < magnitude.getD i 0
           then (frequencies.getD i 0, magnitude.getD i 0) else acc)
        else acc) (0, 0)
    if scan.2 = 0 then
      makeError ℝ .dataError "No peak found in specified frequency range"
    else makeOk scan.1

end SpectralAnalysis

section FindPeakProofs

/-- foldl only looks at the function on elements of the list. -/
lemma foldl_congr_mem {α β : Type} (l : List α) (f g : β → α → β) (b : β)
    (h : ∀ a ∈ l, ∀ x, f x a = g x a) : l.foldl f b = l.foldl g b := by
  induction l generalizing b with
  | nil => rfl
  | cons a l ih =>
    simp only [List.foldl_cons]
    rw [h a (by simp)]
    exact ih _ (fun a ha x => h a (by simp [ha]) x)

/-- Behaviour of the peak scan over bins 0..n-1 with frequency map fr and
nonnegative magnitude map mg: the tracked magnitude is nonnegative, bounds
every in-range magnitude, and when positive is attained at some in-range bin
whose frequency is the tracked one. -/
lemma peak_scan_spec (minF maxF : ℝ) (fr mg : ℕ → ℝ) (hmg : ∀ i, 0 ≤ mg i)
    (n : ℕ) :
    0 ≤ ((List.range n).foldl
      (fun (acc : ℝ × ℝ) i =>
        if minF ≤ fr i ∧ fr i ≤ maxF then
          (if acc.2 < mg i then (fr i, mg i) else acc)
        else acc) (0, 0)).2 ∧
    (∀ i < n, minF ≤ fr i → fr i ≤ maxF →
      mg i ≤ ((List.range n).foldl
      (fun (acc : ℝ × ℝ) i =>
        if minF ≤ fr i ∧ fr i ≤ maxF then
          (if acc.2 < mg i then (fr i, mg i) else acc)
        else acc) (0, 0)).2) ∧
    (((List.range n).foldl
      (fun (acc : ℝ × ℝ) i =>
        if minF ≤ fr i ∧ fr i ≤ maxF then
          (if acc.2 < mg i then (fr i, mg i) else acc)
        else acc) (0, 0)).2 = 0 ∨
      ∃ i < n, (minF ≤ fr i ∧ fr i ≤ maxF) ∧
        mg i = ((List.range n).foldl
      (fun (acc : ℝ × ℝ) i =>
        if minF ≤ fr i ∧ fr i ≤ maxF then
          (if acc.2 < mg i then (fr i, mg i) else acc)
        else acc) (0, 0)).2 ∧
        fr i = ((List.range n).foldl
      (fun (acc : ℝ × ℝ) i =>
        if minF ≤ fr i ∧ fr i ≤ maxF then
          (if acc.2 < mg i then (fr i, mg i) else acc)
        else acc) (0, 0)).1) := by
  induction n with
  | zero => simp
  | succ n ih =>
    obtain ⟨h0, hmax, hatt⟩ := ih
    rw [List.range_succ]
    simp only [List.foldl_append, List.foldl_cons, List.foldl_nil]
    by_cases hin : minF ≤ fr n ∧ fr n ≤ maxF
    · rw [if_pos hin]
      by_cases hup : (((List.range n).foldl
          (fun (acc : ℝ × ℝ) i =>
            if minF ≤ fr i ∧ fr i ≤ maxF then
              (if acc.2 < mg i then (fr i, mg i) else acc)
            else acc) (0, 0)).2) < mg n
      · rw [if_pos hup]
        refine ⟨hmg n, ?_, Or.inr ⟨n, by omega, hin, rfl, rfl⟩⟩
        intro i hi hf1 hf2
        rcases Nat.lt_or_ge i n with hi' | hi'
        · exact le_of_lt (lt_of_le_of_lt (hmax i hi' hf1 hf2) hup)
        · have : i = n := by omega
          subst this
          rfl
      · rw [if_neg hup]
        push_neg at hup
        refine ⟨h0, ?_, ?_⟩
        · intro i hi hf1 hf2
          rcases Nat.lt_or_ge i n with hi' | hi'
          · exact hmax i hi' hf1 hf2
          · have : i = n := by omega
            subst this
            exact hup
        · rcases hatt with h | ⟨i, hi, hin', heq, hfr⟩
          · exact Or.inl h
          · exact Or.inr ⟨i, by omega, hin', heq, hfr⟩
    · rw [if_neg hin]
      refine ⟨h0, ?_, ?_⟩
      · intro i hi hf1 hf2
        rcases Nat.lt_or_ge i n with hi' | hi'
        · exact hmax i hi' hf1 hf2
        · have : i = n := by omega
          subst this
          exact absurd ⟨hf1, hf2⟩ hin
      · rcases hatt with h | ⟨i, hi, hin', heq, hfr⟩
        · exact Or.inl h
        · exact Or.inr ⟨i, by omega, hin', heq, hfr⟩


/-- Claim C9: for a non-empty FFTResult, findPeakFrequency scans the bins
whose frequency lies in [minFreq, maxFreq] (maxFreq < 0 meaning the Nyquist
frequency sampleRate/2) and returns the frequency of a maximal-magnitude
in-range bin; it returns the no-peak error exactly when every in-range bin
has zero magnitude. -/
theorem findPeakFrequency_spec (r : FFT.FFTResult) (minFreq maxFreq : ℝ)
    (hne : r.data ≠ []) :
    (SpectralAnalysis.findPeakFrequency r minFreq maxFreq =
        makeError ℝ .dataError "No peak found in specified frequency range" ↔
      ∀ i < r.data.length,
        minFreq ≤ (i : ℝ) * r.frequencyResolution →
        (i : ℝ) * r.frequencyResolution ≤
          (if maxFreq < 0 then r.sampleRate / 2 else maxFreq) →
        Complex.abs (r.data.getD i 0) = 0) ∧
    ∀ f, SpectralAnalysis.findPeakFrequency r minFreq maxFreq = makeOk f →
      ∃ i < r.data.length,
        (minFreq ≤ (i : ℝ) * r.frequencyResolution ∧
          (i : ℝ) * r.frequencyResolution ≤
            (if maxFreq < 0 then r.sampleRate / 2 else maxFreq)) ∧
        0 < Complex.abs (r.data.getD i 0) ∧
        f = (i : ℝ) * r.frequencyResolution ∧
        ∀ j < r.data.length,
          minFreq ≤ (j : ℝ) * r.frequencyResolution →
          (j : ℝ) * r.frequencyResolution ≤
            (if maxFreq < 0 then r.sampleRate / 2 else maxFreq) →
          Complex.abs (r.data.getD j 0) ≤ Complex.abs (r.data.getD i 0) := by
  have hemp : r.data.isEmpty = false := by simp [List.isEmpty_iff, hne]
  set n := r.data.length with hn
  set maxF := if maxFreq < 0 then r.sampleRate / 2 else maxFreq with hmaxF
  set fr : ℕ → ℝ := fun i => (i : ℝ) * r.frequencyResolution with hfr
  set mg : ℕ → ℝ := fun i => Complex.abs (r.data.getD i 0) with hmg
  have hmlen : r.getMagnitude.length = n := by
    simp [FFT.FFTResult.getMagnitude, hn]
  have hflen : r.getFrequencyBins.length = n := by
    simp [FFT.FFTResult.getFrequencyBins, hn]
  have hfeval : ∀ i < n, r.getFrequencyBins.getD i 0 = fr i := by
    intro i hi
    rw [List.getD_eq_getElem _ 0 (by rw [hflen]; exact hi)]
    simp only [FFT.FFTResult.getFrequencyBins]
    rw [List.getElem_map, List.getElem_range]
  have hmeval : ∀ i < n, r.getMagnitude.getD i 0 = mg i := by
    intro i hi
    rw [List.getD_eq_getElem _ 0 (by rw [hmlen]; exact hi)]
    simp only [FFT.FFTResult.getMagnitude]
    rw [List.getElem_map, hmg]
    congr 1
    rw [List.getD_eq_getElem _ 0 hi]
  have hval : SpectralAnalysis.findPeakFrequency r minFreq maxFreq =
      (if ((List.range n).foldl
          (fun (acc : ℝ × ℝ) i =>
            if minFreq ≤ fr i ∧ fr i ≤ maxF then
              (if acc.2 < mg i then (fr i, mg i) else acc)
            else acc) (0, 0)).2 = 0 then
        makeError ℝ .dataError "No peak found in specified frequency range"
      else makeOk ((List.range n).foldl
          (fun (acc : ℝ × ℝ) i =>
            if minFreq ≤ fr i ∧ fr i ≤ maxF then
              (if acc.2 < mg i then (fr i, mg i) else acc)
            else acc) (0, 0)).1) := by
    simp only [SpectralAnalysis.findPeakFrequency, hemp, Bool.false_eq_true,
      if_false, hmlen, hflen, min_self, ← hmaxF]
    have hcong : (List.range n).foldl
        (fun (acc : ℝ × ℝ) i =>
          if minFreq ≤ r.getFrequencyBins.getD i 0 ∧
              r.getFrequencyBins.getD i 0 ≤ maxF then
            (if acc.2 < r.getMagnitude.getD i 0
             then (r.getFrequencyBins.getD i 0, r.getMagnitude.getD i 0) else acc)
          else acc) (0, 0) =
        (List.range n).foldl
        (fun (acc : ℝ × ℝ) i =>
          if minFreq ≤ fr i ∧ fr i ≤ maxF then
            (if acc.2 < mg i then (fr i, mg i) else acc)
          else acc) (0, 0) := by
      apply foldl_congr_mem
      intro i hi x
      have hi' : i < n := List.mem_range.mp hi
      rw [hfeval i hi', hmeval i hi']
    rw [hcong]
  obtain ⟨h0, hmax, hatt⟩ := peak_scan_spec minFreq maxF fr mg
    (fun i => AbsoluteValue.nonneg Complex.abs _) n
  rw [hval]
  by_cases hz : ((List.range n).foldl
      (fun (acc : ℝ × ℝ) i =>
        if minFreq ≤ fr i ∧ fr i ≤ maxF then
          (if acc.2 < mg i then (fr i, mg i) else acc)
        else acc) (0, 0)).2 = 0
  · rw [if_pos hz]
    constructor
    · constructor
      · intro _ i hi hf1 hf2
        have := hmax i hi hf1 hf2
        have := AbsoluteValue.nonneg Complex.abs (r.data.getD i 0)
        rw [hz] at hmax
        exact le_antisymm (hmax i hi hf1 hf2) (AbsoluteValue.nonneg Complex.abs _)
      · intro _
        rfl
    · intro f hf
      exact absurd hf (by simp [makeError, makeOk])
  · rw [if_neg hz]
    constructor
    · constructor
      · intro h
        exact absurd h (by simp [makeError, makeOk])
      · intro hall
        exfalso
        rcases hatt with h | ⟨i, hi, ⟨hin1, hin2⟩, heq, _⟩
        · exact hz h
        · refine hz ?_
          rw [← heq]
          exact hall i hi hin1 hin2
    · intro f hf
      have hfeq : f = ((List.range n).foldl
          (fun (acc : ℝ × ℝ) i =>
            if minFreq ≤ fr i ∧ fr i ≤ maxF then
              (if acc.2 < mg i then (fr i, mg i) else acc)
            else acc) (0, 0)).1 := by
        have h' := hf
        simp only [makeOk, Except.ok.injEq] at h'
        exact h'.symm
      rcases hatt with h | ⟨i, hi, ⟨hin1, hin2⟩, heq, hfr'⟩
      · exact absurd h hz
      · refine ⟨i, hi, ⟨hin1, hin2⟩, ?_, ?_, ?_⟩
        · have h1 : 0 ≤ mg i := AbsoluteValue.nonneg Complex.abs _
          have h2 : mg i ≠ 0 := by rw [heq]; exact hz
          exact lt_of_le_of_ne h1 (Ne.symm h2)
        · rw [hfeq, ← hfr']
        · intro j hj hjf1 hjf2
          rw [show Complex.abs (r.data.getD i 0) = mg i from rfl, heq]
          exact hmax j hj hjf1 hjf2

/-- Witness for claim C9: a two-bin result with data [0, 3+4i], sample rate 8
and resolution 2; with minFreq 0 and the Nyquist default, the error case of
the theorem applies to the all-zero variant [0, 0]. -/
theorem findPeakFrequency_spec_witness :
    SpectralAnalysis.findPeakFrequency
        ⟨[0, 0], 8, 2, 2, FFT.WindowType.none⟩ 0 (-1) =
      makeError ℝ .dataError "No peak found in specified frequency range" :=
  (findPeakFrequency_spec ⟨[0, 0], 8, 2, 2, FFT.WindowType.none⟩ 0 (-1)
      (by simp)).1.mpr
    (by
      intro i hi _ _
      simp only [List.length_cons, List.length_nil] at hi
      interval_cases i <;> simp)

end FindPeakProofs

/-! ## Radix-2 FFT correctness

The iterative butterfly algorithm of radix2FFT computes the discrete Fourier
transform with twiddle base twiddle inverse n, and the inverse stages undo
the forward stages up to the 1/n scale. The proof follows the classic
decimation-in-time invariant: after the stage of block length 2^s, every
block holds the 2^s-point DFT of a stride-2^(k-s) slice of the bit-reversed
input. -/

section FFTCorrectness

open FFT

/-- bitRev produces a k-bit number. -/
lemma bitRev_lt (k : ℕ) : ∀ p, bitRev k p < 2 ^ k := by
  induction k with
  | zero => intro p; simp [bitRev]
  | succ k ih =>
    intro p
    have h1 : p % 2 ≤ 1 := by omega
    have h2 : bitRev k (p / 2) < 2 ^ k := ih (p / 2)
    have h3 : p % 2 * 2 ^ k ≤ 2 ^ k := by
      calc p % 2 * 2 ^ k ≤ 1 * 2 ^ k := Nat.mul_le_mul_right _ h1
        _ = 2 ^ k := by ring
    rw [bitRev, pow_succ]
    omega

/-- bitRev of 0 is 0. -/
lemma bitRev_zero (k : ℕ) : bitRev k 0 = 0 := by
  induction k with
  | zero => rfl
  | succ k ih => simp [bitRev, ih]

/-- bitRev of a multiple of 2^s has its top s bits clear. -/
lemma bitRev_lt_of_dvd (k : ℕ) :
    ∀ s i, s ≤ k → 2 ^ s ∣ i → bitRev k i < 2 ^ (k - s) := by
  induction k with
  | zero => intro s i _ _; simp [bitRev]
  | succ k ih =>
    intro s i hs hdvd
    match s with
    | 0 => simpa using bitRev_lt (k + 1) i
    | s + 1 =>
      obtain ⟨t, rfl⟩ := hdvd
      have heq : 2 ^ (s + 1) * t = 2 ^ s * t * 2 := by
        rw [pow_succ]
        ring
      have hev : 2 ^ (s + 1) * t % 2 = 0 := by omega
      have hdiv : 2 ^ (s + 1) * t / 2 = 2 ^ s * t := by omega
      have := ih s (2 ^ (s + 1) * t / 2) (by omega) (by rw [hdiv]; exact ⟨t, rfl⟩)
      rw [bitRev, hev]
      simpa using this

/-- Setting bit s of a multiple of 2^(s+1) sets bit k-1-s of the reversal. -/
lemma bitRev_add_pow (k : ℕ) :
    ∀ s i, s < k → 2 ^ (s + 1) ∣ i → i < 2 ^ k →
      bitRev k (i + 2 ^ s) = bitRev k i + 2 ^ (k - 1 - s) := by
  induction k with
  | zero => intro s i hs; omega
  | succ k ih =>
    intro s i hs hdvd hlt
    match s with
    | 0 =>
      -- lowest bit: the reversal gains the top bit 2^k
      have hev : i % 2 = 0 := Nat.mod_eq_zero_of_dvd (by simpa using hdvd)
      show bitRev (k + 1) (i + 2 ^ 0) = bitRev (k + 1) i + 2 ^ (k + 1 - 1 - 0)
      have h0 : (2 : ℕ) ^ 0 = 1 := pow_zero 2
      have h3 : k + 1 - 1 - 0 = k := by omega
      rw [h0, h3, bitRev, bitRev]
      have h1 : (i + 1) % 2 = 1 := by omega
      have h2 : (i + 1) / 2 = i / 2 := by omega
      rw [h1, h2, hev]
      ring
    | s + 1 =>
      -- higher bit: recurse on the halved number
      have hev : i % 2 = 0 :=
        Nat.mod_eq_zero_of_dvd
          (dvd_trans (dvd_pow_self 2 (Nat.succ_ne_zero (s + 1))) hdvd)
      have hpow : (2 : ℕ) ^ (s + 2) = 2 ^ (s + 1) * 2 := pow_succ 2 (s + 1)
      have hpows : (2 : ℕ) ^ (s + 1) = 2 ^ s * 2 := pow_succ 2 s
      have hev2 : (i + 2 ^ (s + 1)) % 2 = 0 := by omega
      have hdiv : (i + 2 ^ (s + 1)) / 2 = i / 2 + 2 ^ s := by omega
      have hdvd2 : 2 ^ (s + 1) ∣ i / 2 := by
        obtain ⟨t, rfl⟩ := hdvd
        have ht : 2 ^ (s + 1 + 1) * t = 2 ^ (s + 1) * t * 2 := by
          rw [pow_succ]
          ring
        exact ⟨t, by omega⟩
      have hlt2 : i / 2 < 2 ^ k := by
        have hk : (2 : ℕ) ^ (k + 1) = 2 ^ k * 2 := pow_succ 2 k
        omega
      have hrec := ih s (i / 2) (by omega) hdvd2 hlt2
      rw [bitRev, bitRev, hev, hev2, hdiv, hrec]
      have h3 : k + 1 - 1 - (s + 1) = k - 1 - s := by omega
      rw [h3]
      ring

/-- Sum over an even range split into even and odd indices. -/
lemma sum_range_double {M : Type} [AddCommMonoid M] (N : ℕ) (f : ℕ → M) :
    ∑ t in Finset.range (2 * N), f t =
      (∑ u in Finset.range N, f (2 * u)) + ∑ u in Finset.range N, f (2 * u + 1) := by
  induction N with
  | zero => simp
  | succ N ih =>
    have h2 : 2 * (N + 1) = (2 * N + 1) + 1 := by ring
    rw [h2, Finset.sum_range_succ, Finset.sum_range_succ,
      Finset.sum_range_succ, Finset.sum_range_succ, ih]
    abel

/-- The twiddle factor is the complex exponential of its angle. -/
lemma twiddle_eq_exp (inv : Bool) (len : ℕ) :
    twiddle inv len =
      Complex.exp ((((if inv then 2 else -2) * Real.pi / len : ℝ) : ℂ) * Complex.I) := by
  apply Complex.ext
  · rw [Complex.exp_ofReal_mul_I_re]
    rfl
  · rw [Complex.exp_ofReal_mul_I_im]
    rfl

/-- Powers of a twiddle factor in exponential form. -/
lemma twiddle_pow (inv : Bool) (len m : ℕ) :
    twiddle inv len ^ m =
      Complex.exp
        ((((m : ℝ) * ((if inv then 2 else -2) * Real.pi / len) : ℝ) : ℂ) * Complex.I) := by
  rw [twiddle_eq_exp, ← Complex.exp_nat_mul]
  congr 1
  push_cast
  ring

/-- Squaring the stage-(s+1) twiddle gives the stage-s twiddle. -/
lemma twiddle_sq (inv : Bool) (s : ℕ) :
    twiddle inv (2 ^ (s + 1)) ^ 2 = twiddle inv (2 ^ s) := by
  rw [twiddle_pow, twiddle_eq_exp]
  congr 2
  have h1 : (((2 : ℕ) ^ (s + 1) : ℕ) : ℝ) = (2 : ℝ) ^ s * 2 := by
    push_cast
    rw [pow_succ]
  have h2 : ((2 : ℝ) ^ s) ≠ 0 := by positivity
  rw [h1]
  push_cast
  field_simp
  ring

/-- The stage-(s+1) twiddle raised to the half block length is -1. -/
lemma twiddle_pow_half (inv : Bool) (s : ℕ) :
    twiddle inv (2 ^ (s + 1)) ^ 2 ^ s = -1 := by
  rw [twiddle_pow]
  have h1 : (((2 : ℕ) ^ (s + 1) : ℕ) : ℝ) = (2 : ℝ) ^ s * 2 := by
    push_cast
    rw [pow_succ]
  have h2 : ((2 : ℝ) ^ s) ≠ 0 := by positivity
  cases inv
  · simp only [Bool.false_eq_true, if_false]
    have hang : (((2 : ℕ) ^ s : ℕ) : ℝ) * (-2 * Real.pi / (((2 : ℕ) ^ (s + 1) : ℕ) : ℝ)) =
        -Real.pi := by
      rw [h1]
      push_cast
      field_simp
      ring
    rw [hang]
    rw [show ((-Real.pi : ℝ) : ℂ) * Complex.I = -(↑Real.pi * Complex.I) from by
      push_cast
      ring]
    rw [Complex.exp_neg, Complex.exp_pi_mul_I]
    norm_num
  · simp only [if_true]
    have hang : (((2 : ℕ) ^ s : ℕ) : ℝ) * (2 * Real.pi / (((2 : ℕ) ^ (s + 1) : ℕ) : ℝ)) =
        Real.pi := by
      rw [h1]
      push_cast
      field_simp
      ring
    rw [hang]
    exact Complex.exp_pi_mul_I

/-- The stage-s twiddle raised to the block length is 1. -/
lemma twiddle_pow_self (inv : Bool) (s : ℕ) :
    twiddle inv (2 ^ s) ^ 2 ^ s = 1 := by
  rw [twiddle_pow]
  have h2 : ((2 : ℝ) ^ s) ≠ 0 := by positivity
  cases inv
  · simp only [Bool.false_eq_true, if_false]
    have hang : (((2 : ℕ) ^ s : ℕ) : ℝ) * (-2 * Real.pi / (((2 : ℕ) ^ s : ℕ) : ℝ)) =
        -(2 * Real.pi) := by
      push_cast
      field_simp
      ring
    rw [hang]
    rw [show ((-(2 * Real.pi) : ℝ) : ℂ) = -(2 * (Real.pi : ℂ)) from by push_cast; ring]
    rw [show (-(2 * (Real.pi : ℂ))) * Complex.I = -(2 * ↑Real.pi * Complex.I) from by ring]
    rw [Complex.exp_neg, Complex.exp_two_pi_mul_I]
    norm_num
  · simp only [if_true]
    have hang : (((2 : ℕ) ^ s : ℕ) : ℝ) * (2 * Real.pi / (((2 : ℕ) ^ s : ℕ) : ℝ)) =
        2 * Real.pi := by
      push_cast
      field_simp
    rw [hang]
    rw [show ((2 * Real.pi : ℝ) : ℂ) * Complex.I = 2 * ↑Real.pi * Complex.I from by
      push_cast
      ring]
    exact Complex.exp_two_pi_mul_I

/-- The w-parameterised discrete Fourier transform of the first N values
of f. -/
noncomputable def dftW (w : ℂ) (N : ℕ) (f : ℕ → ℂ) (j : ℕ) : ℂ :=
  ∑ t in Finset.range N, f t * w ^ (j * t)

/-- Decimation-in-time invariant: after the stages up to block length 2^s,
position p of the bit-reversed-then-combined array holds the 2^s-point DFT,
at row p mod 2^s, of the stride-2^(k-s) slice of x starting at the
bit-reversal of the block start. -/
lemma applyStages_spec (inv : Bool) (k : ℕ) (x : ℕ → ℂ) :
    ∀ s, s ≤ k → ∀ p, p < 2 ^ k →
      applyStages inv s (fun q => x (bitRev k q)) p =
        ∑ t in Finset.range (2 ^ s),
          x (bitRev k (2 ^ s * (p / 2 ^ s)) + t * 2 ^ (k - s)) *
            twiddle inv (2 ^ s) ^ (p % 2 ^ s * t) := by
  intro s
  induction s with
  | zero =>
    intro _ p hp
    simp [applyStages]
  | succ s ih =>
    intro hs1 p hp
    have hL0 : 0 < 2 ^ s := Nat.pos_pow_of_pos s (by norm_num)
    have hL20 : 0 < 2 ^ (s + 1) := Nat.pos_pow_of_pos (s + 1) (by norm_num)
    have hL2 : (2 : ℕ) ^ (s + 1) = 2 * 2 ^ s := by rw [pow_succ]; ring
    have hhalf : (2 : ℕ) ^ (s + 1) / 2 = 2 ^ s := by omega
    have hst : (2 : ℕ) ^ (k - s) = 2 * 2 ^ (k - s - 1) := by
      rw [← pow_succ']
      congr 1 <;> omega
    have hst' : (2 : ℕ) ^ (k - (s + 1)) = 2 ^ (k - s - 1) := by
      congr 1 <;> omega
    set j := p % 2 ^ (s + 1) with hjdef
    set a := p / 2 ^ (s + 1) with hadef
    have hpI : 2 ^ (s + 1) * a + j = p := Nat.div_add_mod p (2 ^ (s + 1))
    have hj2 : j < 2 ^ (s + 1) := Nat.mod_lt p hL20
    have hM : 2 ^ (s + 1) * 2 ^ (k - s - 1) = 2 ^ k := by
      rw [← pow_add]
      congr 1 <;> omega
    have ha : a < 2 ^ (k - s - 1) := by
      rw [hadef]
      have hplt : p < 2 ^ (k - s - 1) * 2 ^ (s + 1) := by
        rw [Nat.mul_comm, hM]
        exact hp
      exact (Nat.div_lt_iff_lt_mul hL20).mpr hplt
    have hI2L : 2 ^ (s + 1) * a + 2 ^ (s + 1) ≤ 2 ^ k := by
      calc 2 ^ (s + 1) * a + 2 ^ (s + 1) = 2 ^ (s + 1) * (a + 1) := by ring
        _ ≤ 2 ^ (s + 1) * 2 ^ (k - s - 1) := Nat.mul_le_mul_left _ ha
        _ = 2 ^ k := hM
    have hIlt : 2 ^ (s + 1) * a < 2 ^ k := by omega
    have hrev : bitRev k (2 ^ (s + 1) * a + 2 ^ s) =
        bitRev k (2 ^ (s + 1) * a) + 2 ^ (k - 1 - s) :=
      bitRev_add_pow k s (2 ^ (s + 1) * a) (by omega) ⟨a, rfl⟩ hIlt
    have hks : (2 : ℕ) ^ (k - 1 - s) = 2 ^ (k - s - 1) := by
      congr 1 <;> omega
    -- protect the two twiddle factors behind local names
    have hWV : twiddle inv (2 ^ (s + 1)) ^ 2 = twiddle inv (2 ^ s) :=
      twiddle_sq inv s
    have hWhalf : twiddle inv (2 ^ (s + 1)) ^ 2 ^ s = -1 := twiddle_pow_half inv s
    have hVself : twiddle inv (2 ^ s) ^ 2 ^ s = 1 := twiddle_pow_self inv s
    set W := twiddle inv (2 ^ (s + 1)) with hWdef
    set V := twiddle inv (2 ^ s) with hVdef
    have hWeven : ∀ m : ℕ, W ^ (j * (2 * m)) = V ^ (j * m) := by
      intro m
      rw [show j * (2 * m) = 2 * (j * m) from by ring, pow_mul, hWV]
    have hWodd : ∀ m : ℕ, W ^ (j * (2 * m + 1)) = V ^ (j * m) * W ^ j := by
      intro m
      rw [show j * (2 * m + 1) = 2 * (j * m) + j from by ring, pow_add,
        pow_mul, hWV]
    have hstage : applyStages inv (s + 1) (fun q => x (bitRev k q)) p =
        stageMap inv (2 ^ (s + 1)) (applyStages inv s (fun q => x (bitRev k q))) p := rfl
    rw [hstage]
    simp only [stageMap, hhalf, ← hjdef, ← hWdef]
    by_cases hjL : j < 2 ^ s
    · -- lower half of the block: u + v * w^j
      rw [if_pos hjL]
      have h1 : p = 2 ^ s * (2 * a) + j := by rw [← hpI, hL2]; ring
      have c2 : 2 ^ s * (p / 2 ^ s) = 2 ^ (s + 1) * a := by
        have h2 : p / 2 ^ s = 2 * a := by
          rw [h1, Nat.mul_add_div hL0, Nat.div_eq_of_lt hjL, Nat.add_zero]
        rw [h2, hL2]
        ring
      have c1 : p % 2 ^ s = j := by
        rw [h1, Nat.mul_add_mod, Nat.mod_eq_of_lt hjL]
      have h1L : p + 2 ^ s = 2 ^ s * (2 * a + 1) + j := by rw [h1]; ring
      have c3 : 2 ^ s * ((p + 2 ^ s) / 2 ^ s) = 2 ^ (s + 1) * a + 2 ^ s := by
        have h2 : (p + 2 ^ s) / 2 ^ s = 2 * a + 1 := by
          rw [h1L, Nat.mul_add_div hL0, Nat.div_eq_of_lt hjL, Nat.add_zero]
        rw [h2, hL2]
        ring
      have c4 : (p + 2 ^ s) % 2 ^ s = j := by
        rw [h1L, Nat.mul_add_mod, Nat.mod_eq_of_lt hjL]
      have hpL2 : p + 2 ^ s < 2 ^ k := by omega
      have hDp := ih (by omega) p hp
      have hDpL := ih (by omega) (p + 2 ^ s) hpL2
      rw [c2, c1] at hDp
      rw [c3, c4, hrev, hks] at hDpL
      rw [hDp, hDpL]
      rw [show Finset.range (2 ^ (s + 1)) = Finset.range (2 * 2 ^ s) from by
        rw [hL2]]
      rw [sum_range_double]
      have heven : (∑ u in Finset.range (2 ^ s),
          x (bitRev k (2 ^ (s + 1) * a) + 2 * u * 2 ^ (k - (s + 1))) *
            W ^ (j * (2 * u))) =
          ∑ t in Finset.range (2 ^ s),
            x (bitRev k (2 ^ (s + 1) * a) + t * 2 ^ (k - s)) * V ^ (j * t) := by
        apply Finset.sum_congr rfl
        intro u _
        rw [show 2 * u * 2 ^ (k - (s + 1)) = u * 2 ^ (k - s) from by
          rw [hst', hst]; ring]
        rw [hWeven u]
      have hodd : (∑ u in Finset.range (2 ^ s),
          x (bitRev k (2 ^ (s + 1) * a) + (2 * u + 1) * 2 ^ (k - (s + 1))) *
            W ^ (j * (2 * u + 1))) =
          (∑ t in Finset.range (2 ^ s),
            x (bitRev k (2 ^ (s + 1) * a) + 2 ^ (k - s - 1) + t * 2 ^ (k - s)) *
              V ^ (j * t)) * W ^ j := by
        rw [Finset.sum_mul]
        apply Finset.sum_congr rfl
        intro u _
        rw [show (2 * u + 1) * 2 ^ (k - (s + 1)) =
            2 ^ (k - s - 1) + u * 2 ^ (k - s) from by rw [hst', hst]; ring]
        rw [← Nat.add_assoc, hWodd u]
        ring
      rw [heven, hodd]
    · -- upper half of the block: u - v * w^(j - 2^s)
      rw [if_neg hjL]
      push_neg at hjL
      obtain ⟨r, hr⟩ : ∃ r, j = 2 ^ s + r := ⟨j - 2 ^ s, by omega⟩
      have hrlt : r < 2 ^ s := by omega
      have hsub : j - 2 ^ s = r := by omega
      have hVsplit : ∀ m : ℕ, V ^ (j * m) = V ^ (r * m) := by
        intro m
        rw [show j * m = 2 ^ s * m + r * m from by rw [hr]; ring, pow_add,
          pow_mul, hVself, one_pow, one_mul]
      have hWj : W ^ j = -(W ^ r) := by
        rw [hr, pow_add, hWhalf]
        ring
      have h1 : p = 2 ^ s * (2 * a + 1) + r := by
        rw [← hpI, hr, hL2]
        ring
      have c2 : 2 ^ s * (p / 2 ^ s) = 2 ^ (s + 1) * a + 2 ^ s := by
        have h2 : p / 2 ^ s = 2 * a + 1 := by
          rw [h1, Nat.mul_add_div hL0, Nat.div_eq_of_lt hrlt, Nat.add_zero]
        rw [h2, hL2]
        ring
      have c1 : p % 2 ^ s = r := by
        rw [h1, Nat.mul_add_mod, Nat.mod_eq_of_lt hrlt]
      have h1L : p - 2 ^ s = 2 ^ s * (2 * a) + r := by
        rw [h1]
        have hone : 2 ^ s * (2 * a + 1) + r = (2 ^ s * (2 * a) + r) + 2 ^ s := by
          ring
        omega
      have c3 : 2 ^ s * ((p - 2 ^ s) / 2 ^ s) = 2 ^ (s + 1) * a := by
        have h2 : (p - 2 ^ s) / 2 ^ s = 2 * a := by
          rw [h1L, Nat.mul_add_div hL0, Nat.div_eq_of_lt hrlt, Nat.add_zero]
        rw [h2, hL2]
        ring
      have c4 : (p - 2 ^ s) % 2 ^ s = r := by
        rw [h1L, Nat.mul_add_mod, Nat.mod_eq_of_lt hrlt]
      have hpL2 : p - 2 ^ s < 2 ^ k := by omega
      have hDp := ih (by omega) p hp
      have hDpL := ih (by omega) (p - 2 ^ s) hpL2
      rw [c2, c1, hrev, hks] at hDp
      rw [c3, c4] at hDpL
      rw [hDp, hDpL, hsub]
      rw [show Finset.range (2 ^ (s + 1)) = Finset.range (2 * 2 ^ s) from by
        rw [hL2]]
      rw [sum_range_double, sub_eq_add_neg]
      congr 1
      · -- even indices reproduce the lower DFT
        apply Finset.sum_congr rfl
        intro u _
        rw [show 2 * u * 2 ^ (k - (s + 1)) = u * 2 ^ (k - s) from by
          rw [hst', hst]; ring]
        rw [hWeven u, hVsplit u]
      · -- odd indices reproduce the negated upper DFT
        rw [Finset.sum_mul, ← Finset.sum_neg_distrib]
        apply Finset.sum_congr rfl
        intro u _
        rw [show (2 * u + 1) * 2 ^ (k - (s + 1)) =
            2 ^ (k - s - 1) + u * 2 ^ (k - s) from by rw [hst', hst]; ring]
        rw [← Nat.add_assoc, hWodd u, hVsplit u, hWj]
        ring

/-- On a power-of-two length 2^k, radix2FFT computes at each output
position j the 2^k-point DFT of the data with kernel twiddle inv (2^k),
scaled by 1/2^k when inverse. -/
lemma radix2FFT_pow_spec (data : List ℂ) (inv : Bool) (k : ℕ)
    (hlen : data.length = 2 ^ k) :
    radix2FFT data inv =
      (List.range (2 ^ k)).map (fun j =>
        dftW (twiddle inv (2 ^ k)) (2 ^ k) (fun t => data.getD t 0) j *
          (if inv then 1 / (((2 : ℕ) ^ k : ℕ) : ℂ) else 1)) := by
  have hmain : ∀ j < 2 ^ k,
      applyStages inv k (fun p => data.getD (bitRev k p) 0) j =
        dftW (twiddle inv (2 ^ k)) (2 ^ k) (fun t => data.getD t 0) j := by
    intro j hj
    have h := applyStages_spec inv k (fun t => data.getD t 0) k le_rfl j hj
    rw [Nat.div_eq_of_lt hj, Nat.mul_zero, bitRev_zero, Nat.sub_self,
      Nat.mod_eq_of_lt hj] at h
    simpa [dftW] using h
  simp only [radix2FFT, hlen, isValidSize_two_pow, if_true,
    Nat.log2_eq_log_two, Nat.log_pow (by norm_num : 1 < 2)]
  cases inv with
  | false =>
    simp only [Bool.false_eq_true, if_false, mul_one]
    refine List.map_congr_left ?_
    intro j hj
    exact hmain j (List.mem_range.mp hj)
  | true =>
    simp only [if_true, List.map_map]
    refine List.map_congr_left ?_
    intro j hj
    simp only [Function.comp]
    rw [hmain j (List.mem_range.mp hj)]

/-- The forward and inverse twiddle factors of the same length are
mutually inverse. -/
lemma twiddle_mul_inv (N : ℕ) : twiddle true N * twiddle false N = 1 := by
  rw [twiddle_eq_exp, twiddle_eq_exp]
  simp only [if_true, Bool.false_eq_true, if_false]
  rw [← Complex.exp_add,
    show (((2 * Real.pi / N : ℝ) : ℂ)) * Complex.I +
        (((-2 * Real.pi / N : ℝ) : ℂ)) * Complex.I = 0 from by
      push_cast
      ring]
  exact Complex.exp_zero

/-- The inverse twiddle factor of length 2^k is a primitive 2^k-th root of
unity. -/
lemma twiddle_true_primitive (k : ℕ) :
    IsPrimitiveRoot (twiddle true (2 ^ k)) (2 ^ k) := by
  have hN : ((2 : ℕ) ^ k : ℕ) ≠ 0 := (Nat.pos_pow_of_pos k (by norm_num)).ne'
  have heq : twiddle true (2 ^ k) =
      Complex.exp (2 * (Real.pi : ℂ) * Complex.I / (((2 : ℕ) ^ k : ℕ) : ℂ)) := by
    rw [twiddle_eq_exp]
    simp only [if_true]
    congr 1
    push_cast
    ring
  rw [heq]
  exact Complex.isPrimitiveRoot_exp ((2 : ℕ) ^ k) hN

/-- Geometric-sum evaluation of root-of-unity powers: summing z^(j*d) over
j < N gives N when N divides d and 0 otherwise. -/
lemma sum_pow_root (N : ℕ) (hN : 0 < N) (z : ℂ) (hprim : IsPrimitiveRoot z N)
    (d : ℕ) :
    ∑ j in Finset.range N, z ^ (j * d) = if N ∣ d then (N : ℂ) else 0 := by
  have hform : ∀ j, z ^ (j * d) = (z ^ d) ^ j := by
    intro j
    rw [← pow_mul, Nat.mul_comm]
  simp only [hform]
  by_cases hdvd : N ∣ d
  · rw [if_pos hdvd]
    have h1 : z ^ d = 1 := by
      obtain ⟨c, rfl⟩ := hdvd
      rw [pow_mul, hprim.pow_eq_one, one_pow]
    simp [h1]
  · rw [if_neg hdvd]
    have h1 : z ^ d ≠ 1 := fun hcon =>
      hdvd ((hprim.pow_eq_one_iff_dvd d).mp hcon)
    rw [geom_sum_eq h1, ← pow_mul, Nat.mul_comm d N, pow_mul, hprim.pow_eq_one,
      one_pow, sub_self, zero_div]

/-- For u, m below N, the combined exponent u*(N-1) + m is a multiple of N
exactly when u = m. -/
lemma dvd_aux_window (N u m : ℕ) (hu : u < N) (hm : m < N) :
    N ∣ u * (N - 1) + m ↔ u = m := by
  constructor
  · intro hdvd
    have h1 : (N : ℤ) ∣ ((u * (N - 1) + m : ℕ) : ℤ) :=
      Int.natCast_dvd_natCast.mpr hdvd
    have h2 : ((u * (N - 1) + m : ℕ) : ℤ) = (N : ℤ) * u + ((m : ℤ) - u) := by
      rw [Nat.cast_add, Nat.cast_mul, Nat.cast_sub (by omega : 1 ≤ N)]
      push_cast
      ring
    rw [h2] at h1
    have hz : (N : ℤ) ∣ ((m : ℤ) - u) :=
      (dvd_add_right ⟨(u : ℤ), rfl⟩).mp h1
    have h0 : ((m : ℤ) - u) = 0 :=
      Int.eq_zero_of_dvd_of_natAbs_lt_natAbs hz (by omega)
    omega
  · rintro rfl
    obtain ⟨n, rfl⟩ : ∃ n, N = n + 1 := ⟨N - 1, by omega⟩
    exact ⟨u, by simp [Nat.add_sub_cancel]; ring⟩

/-- Pointwise DFT inversion: the scaled inverse-kernel DFT of the
forward-kernel DFT of f recovers f at every index below 2^k. -/
lemma dft_inversion_entry (k : ℕ) (f : ℕ → ℂ) (m : ℕ) (hm : m < 2 ^ k) :
    dftW (twiddle true (2 ^ k)) (2 ^ k)
        (fun t => dftW (twiddle false (2 ^ k)) (2 ^ k) f t) m *
      (1 / (((2 : ℕ) ^ k : ℕ) : ℂ)) = f m := by
  have hN : 0 < 2 ^ k := Nat.pos_pow_of_pos k (by norm_num)
  have hprim : IsPrimitiveRoot (twiddle true (2 ^ k)) (2 ^ k) :=
    twiddle_true_primitive k
  set N := 2 ^ k with hNdef
  set Z := twiddle true N with hZdef
  have hZN : Z ^ N = 1 := hprim.pow_eq_one
  have hZ0 : Z ≠ 0 := fun h0 => by
    rw [h0, zero_pow (by omega : N ≠ 0)] at hZN
    exact one_ne_zero hZN.symm
  have hmul : Z * twiddle false N = 1 := twiddle_mul_inv N
  have hW : twiddle false N = Z ^ (N - 1) := by
    have h1 : Z * Z ^ (N - 1) = 1 := by
      rw [← pow_succ', show N - 1 + 1 = N from by omega]
      exact hZN
    exact mul_left_cancel₀ hZ0 (hmul.trans h1.symm)
  have hterm : ∀ t u : ℕ, f u * twiddle false N ^ (t * u) * Z ^ (m * t) =
      f u * Z ^ (t * (u * (N - 1) + m)) := by
    intro t u
    rw [hW, ← pow_mul, mul_assoc, ← pow_add]
    congr 2
    ring
  simp only [dftW]
  have hswap : (∑ t in Finset.range N,
        (∑ u in Finset.range N, f u * twiddle false N ^ (t * u)) * Z ^ (m * t)) =
      ∑ u in Finset.range N, f u *
        ∑ t in Finset.range N, Z ^ (t * (u * (N - 1) + m)) := by
    simp only [Finset.sum_mul]
    rw [Finset.sum_comm]
    apply Finset.sum_congr rfl
    intro u _
    rw [Finset.mul_sum]
    apply Finset.sum_congr rfl
    intro t _
    exact hterm t u
  rw [hswap]
  have hinner : ∀ u ∈ Finset.range N,
      f u * ∑ t in Finset.range N, Z ^ (t * (u * (N - 1) + m)) =
        if u = m then f u * (N : ℂ) else 0 := by
    intro u hu
    rw [sum_pow_root N hN Z hprim (u * (N - 1) + m)]
    by_cases h : u = m
    · rw [if_pos ((dvd_aux_window N u m (Finset.mem_range.mp hu) hm).mpr h),
        if_pos h]
    · rw [if_neg (fun hc => h ((dvd_aux_window N u m
        (Finset.mem_range.mp hu) hm).mp hc)), if_neg h, mul_zero]
  rw [Finset.sum_congr rfl hinner, Finset.sum_ite_eq' (Finset.range N) m
    (fun u => f u * (N : ℂ)), if_pos (Finset.mem_range.mpr hm)]
  have hNne : ((N : ℕ) : ℂ) ≠ 0 := Nat.cast_ne_zero.mpr (by omega)
  field_simp

/-- Round trip of radix2FFT on a power-of-two length: the inverse transform
of the forward transform returns the data exactly. -/
lemma radix2FFT_roundtrip (z : List ℂ) (k : ℕ) (hlen : z.length = 2 ^ k) :
    radix2FFT (radix2FFT z false) true = z := by
  have h1 := radix2FFT_pow_spec z false k hlen
  have hlen1 : (radix2FFT z false).length = 2 ^ k := by
    rw [radix2FFT_length, hlen]
  have h2 := radix2FFT_pow_spec (radix2FFT z false) true k hlen1
  rw [h2]
  apply List.ext_getElem
  · simp [hlen]
  intro m hm1 hm2
  have hm : m < 2 ^ k := by simpa using hm1
  simp only [List.getElem_map, List.getElem_range, if_true]
  have hg : ∀ t, t < 2 ^ k → (radix2FFT z false).getD t 0 =
      dftW (twiddle false (2 ^ k)) (2 ^ k) (fun u => z.getD u 0) t := by
    intro t ht
    rw [h1, List.getD_eq_getElem _ 0 (by simpa using ht)]
    simp [ht]
  have hsame : dftW (twiddle true (2 ^ k)) (2 ^ k)
      (fun t => (radix2FFT z false).getD t 0) m =
      dftW (twiddle true (2 ^ k)) (2 ^ k)
        (fun t => dftW (twiddle false (2 ^ k)) (2 ^ k) (fun u => z.getD u 0) t)
        m := by
    simp only [dftW]
    apply Finset.sum_congr rfl
    intro t ht
    rw [hg t (Finset.mem_range.mp ht)]
    rfl
  rw [hsame, dft_inversion_entry k (fun u => z.getD u 0) m hm]
  exact List.getD_eq_getElem z 0 hm2

/-- Counterexample to claim C1 as stated for every non-empty input: on the
constant signal of length 2^31 + 1, nextPowerOf2 wraps to 0, forward
truncates the signal away and returns an FFTResult with empty data, and
inverse on that data is an error - nothing of the signal is reproduced. -/
theorem forward_inverse_not_roundtrip_large :
    ∃ res, forward (List.replicate (2 ^ 31 + 1) (1 : ℝ)) 1 WindowType.none =
        makeOk res ∧
      res.data = [] ∧
      inverse res.data =
        makeError (List ℝ) ErrorCode.invalidArgument "Input is empty" := by
  have hne : (List.replicate (2 ^ 31 + 1) (1 : ℝ)).isEmpty = false := by
    rw [Bool.eq_false_iff]
    intro h
    have hl := congrArg List.length (List.isEmpty_iff.mp h)
    rw [List.length_replicate, List.length_nil] at hl
    exact absurd hl (by norm_num)
  have hsmear : smear32 (2 ^ 31 + 1 - 1) = 2 ^ 32 - 1 :=
    smear32_eq_pow_sub_one (2 ^ 31 + 1 - 1) 32 (by norm_num) le_rfl
      (by norm_num) (by norm_num)
  have hN0 : nextPowerOf2 (2 ^ 31 + 1) = 0 := by
    rw [nextPowerOf2, if_neg (by norm_num), hsmear]
    norm_num
  have hmod32 : (2 ^ 31 + 1 : ℕ) % 2 ^ 32 = 2 ^ 31 + 1 :=
    Nat.mod_eq_of_lt (by norm_num)
  have hzp : zeroPad (List.replicate (2 ^ 31 + 1) (1 : ℝ)) 0 = [] := by
    simp only [zeroPad, List.take_zero, Nat.zero_sub, List.replicate_zero,
      List.append_nil]
  have hrfft_nil : radix2FFT ([] : List ℂ) false = [] := by
    simp only [radix2FFT, List.length_nil]
    rw [if_neg (by decide : ¬ (isValidSize 0 = true))]
  have hfwd : forward (List.replicate (2 ^ 31 + 1) (1 : ℝ)) 1 WindowType.none =
      makeOk ⟨[], 1, 1 / ((0 : ℕ) : ℝ), 0, WindowType.none⟩ := by
    simp only [forward, hne, Bool.false_eq_true, if_false,
      List.length_replicate]
    rw [hmod32, hN0, hzp, if_neg (fun h => h rfl), List.map_nil, hrfft_nil]
  exact ⟨_, hfwd, rfl, rfl⟩

/-- Claim C1 (amended): for a non-empty real input of length at most 2^31
(so that the uint32 padding arithmetic does not wrap) and window None, the
inverse transform of the forward transform's data field is exactly the
input zero-padded to nextPowerOf2 of its length (float rounding idealised
as exact real arithmetic). -/
theorem fft_round_trip (x : List ℝ) (sampleRate : ℝ) (hne : x ≠ [])
    (hlen : x.length ≤ 2 ^ 31) :
    ∃ res, forward x sampleRate WindowType.none = makeOk res ∧
      inverse res.data = makeOk (zeroPad x (nextPowerOf2 x.length)) := by
  have hpos : 1 ≤ x.length := by
    cases x with
    | nil => exact absurd rfl hne
    | cons a l => simp
  have hmod : x.length % 2 ^ 32 = x.length := Nat.mod_eq_of_lt (by omega)
  obtain ⟨⟨j, hj⟩, hle, -⟩ := nextPowerOf2_correct x.length hpos hlen
  set N := nextPowerOf2 x.length with hNdef
  set w : List ℂ := (zeroPad x N).map (fun v => (⟨v, 0⟩ : ℂ)) with hwdef
  have hzplen : (zeroPad x N).length = N := zeroPad_length x N hle
  have hwlen : w.length = 2 ^ j := by
    rw [hwdef, List.length_map, hzplen, hj]
  have hempty : x.isEmpty = false := by
    cases x with
    | nil => exact absurd rfl hne
    | cons a l => rfl
  have hfwd : forward x sampleRate WindowType.none =
      makeOk ⟨radix2FFT w false, sampleRate, sampleRate / (N : ℝ), N,
        WindowType.none⟩ := by
    simp only [forward, hempty, Bool.false_eq_true, if_false, hmod, ← hNdef,
      ne_eq, not_true_eq_false, ← hwdef]
  refine ⟨_, hfwd, ?_⟩
  show inverse (radix2FFT w false) = makeOk (zeroPad x N)
  have hrlen : (radix2FFT w false).length = 2 ^ j := by
    rw [radix2FFT_length, hwlen]
  have hrne : radix2FFT w false ≠ [] := by
    intro h
    rw [h, List.length_nil] at hrlen
    exact (Nat.pos_pow_of_pos j (by norm_num)).ne' hrlen.symm
  have hrempty : (radix2FFT w false).isEmpty = false := by
    rw [Bool.eq_false_iff]
    intro h
    exact hrne (List.isEmpty_iff.mp h)
  simp only [inverse, hrempty, Bool.false_eq_true, if_false]
  rw [radix2FFT_roundtrip w j hwlen]
  congr 1
  rw [hwdef, List.map_map]
  have hcomp : (Complex.re ∘ fun v : ℝ => (⟨v, 0⟩ : ℂ)) = id := rfl
  rw [hcomp, List.map_id]

/-- Witness for claim C1 at x = [5], sampleRate 1: the hypotheses hold and
the round trip reproduces the (already power-of-two length) signal. -/
theorem fft_round_trip_witness :
    ([5] : List ℝ) ≠ [] ∧ ([5] : List ℝ).length ≤ 2 ^ 31 ∧
      ∃ res, forward ([5] : List ℝ) 1 WindowType.none = makeOk res ∧
        inverse res.data =
          makeOk (zeroPad ([5] : List ℝ) (nextPowerOf2 ([5] : List ℝ).length)) :=
  ⟨by simp, by norm_num, fft_round_trip [5] 1 (by simp) (by norm_num)⟩

end FFTCorrectness

section RealTimeFFTModel

open FFT

/-! ## RealTimeFFT (include/fmus/dsp/fft.h)

The header declares RealTimeFFT but the repository contains no
implementation of it, so the behaviour below is modelled from the
specification text rather than from source code. -/

/-- Modelled from the spec: state of the streaming FFT processor - the
configuration, the cached window coefficients, the sliding buffer, and the
hop size derived from the overlap factor. Field names follow the m_-fields
of the header declaration. -/
structure RealTimeFFT where
  fftSize : ℕ
  sampleRate : ℝ
  overlapFactor : ℚ
  window : WindowType
  windowCoeffs : List ℝ
  buffer : List ℝ
  hopSize : ℕ

namespace RealTimeFFT

/-- Modelled from the spec: the constructor caches the window coefficients
for the configured size and sets hopSize = fftSize * (1 - overlapFactor)
rounded to an integer and clamped to at least 1; the buffer starts empty. -/
noncomputable def create (fftSize : ℕ) (sampleRate : ℝ) (overlapFactor : ℚ)
    (window : WindowType) : RealTimeFFT :=
  { fftSize := fftSize
    sampleRate := sampleRate
    overlapFactor := overlapFactor
    window := window
    windowCoeffs := generateWindow fftSize window 0
    buffer := []
    hopSize := max 1 (round ((fftSize : ℚ) * (1 - overlapFactor))).toNat }

/-- Modelled from the spec: the emission loop of processSamples - while at
least fftSize samples are buffered, multiply the oldest full window by the
cached coefficients, run the forward FFT on it, emit the result, and
discard the oldest hopSize samples. -/
noncomputable def emitFrames (F hop : ℕ) (wc : List ℝ) (sr : ℝ)
    (buf : List ℝ) : List (CResult FFTResult) × List ℝ :=
  if h : 0 < F ∧ F ≤ buf.length ∧ 0 < hop then
    let frame := List.zipWith (fun s c => s * c) (buf.take F) wc
    let rest := emitFrames F hop wc sr (buf.drop hop)
    (forward frame sr WindowType.none :: rest.1, rest.2)
  else ([], buf)
termination_by buf.length
decreasing_by
  simp only [List.length_drop]
  omega

/-- Modelled from the spec: processSamples appends the incoming batch to
the sliding buffer and runs the emission loop, returning the emitted
results and the updated state. -/
noncomputable def processSamples (rt : RealTimeFFT) (samples : List ℝ) :
    List (CResult FFTResult) × RealTimeFFT :=
  let p := emitFrames rt.fftSize rt.hopSize rt.windowCoeffs rt.sampleRate
    (rt.buffer ++ samples)
  (p.1, { rt with buffer := p.2 })

/-- Modelled from the spec: reset clears the sliding buffer but keeps the
cached window coefficients. -/
def reset (rt : RealTimeFFT) : RealTimeFFT := { rt with buffer := [] }

end RealTimeFFT

/-- The number of windows the emission loop emits from n buffered samples
with window length F and hop size hop. -/
def frameCount (F hop n : ℕ) : ℕ := if n < F then 0 else (n - F) / hop + 1

/-- Closed form of the emission loop: it emits frameCount windows, the i-th
being the forward FFT of the coefficient-weighted window starting at offset
i * hop, and it retains exactly the samples after the last discarded hop. -/
lemma emitFrames_spec (F hop : ℕ) (wc : List ℝ) (sr : ℝ)
    (hF : 0 < F) (hhop : 0 < hop) :
    ∀ buf : List ℝ,
      (RealTimeFFT.emitFrames F hop wc sr buf).1 =
        (List.range (frameCount F hop buf.length)).map (fun i =>
          forward (List.zipWith (fun s c => s * c)
            ((buf.drop (i * hop)).take F) wc) sr WindowType.none) ∧
      (RealTimeFFT.emitFrames F hop wc sr buf).2 =
        buf.drop (frameCount F hop buf.length * hop) := by
  suffices h : ∀ n (buf : List ℝ), buf.length = n →
      (RealTimeFFT.emitFrames F hop wc sr buf).1 =
        (List.range (frameCount F hop buf.length)).map (fun i =>
          forward (List.zipWith (fun s c => s * c)
            ((buf.drop (i * hop)).take F) wc) sr WindowType.none) ∧
      (RealTimeFFT.emitFrames F hop wc sr buf).2 =
        buf.drop (frameCount F hop buf.length * hop) by
    intro buf
    exact h buf.length buf rfl
  intro n
  induction n using Nat.strong_induction_on with
  | _ n ih =>
    intro buf hlen
    subst hlen
    by_cases hcase : F ≤ buf.length
    · rw [RealTimeFFT.emitFrames, dif_pos ⟨hF, hcase, hhop⟩]
      obtain ⟨h1, h2⟩ := ih (buf.length - hop) (by omega) (buf.drop hop)
        (by rw [List.length_drop])
      rw [List.length_drop] at h1 h2
      have hcnt : frameCount F hop buf.length =
          frameCount F hop (buf.length - hop) + 1 := by
        rcases lt_or_ge (buf.length - hop) F with hlt | hge
        · rw [frameCount, if_neg (by omega), frameCount, if_pos hlt,
            Nat.div_eq_of_lt (by omega)]
        · rw [frameCount, if_neg (by omega), frameCount, if_neg (by omega),
            show buf.length - F = buf.length - hop - F + hop from by omega,
            Nat.add_div_right _ hhop]
      constructor
      · show forward (List.zipWith (fun s c => s * c) (buf.take F) wc) sr
            WindowType.none :: (RealTimeFFT.emitFrames F hop wc sr (buf.drop hop)).1 = _
        rw [h1, hcnt, List.range_succ_eq_map, List.map_cons, List.map_map,
          Nat.zero_mul, List.drop_zero]
        congr 1
        apply List.map_congr_left
        intro i _
        simp only [Function.comp]
        rw [List.drop_drop, show hop + i * hop = i.succ * hop from by
          rw [Nat.succ_mul]; ring]
      · show (RealTimeFFT.emitFrames F hop wc sr (buf.drop hop)).2 = _
        rw [h2, List.drop_drop, hcnt,
          show hop + frameCount F hop (buf.length - hop) * hop =
            (frameCount F hop (buf.length - hop) + 1) * hop from by ring]
    · rw [RealTimeFFT.emitFrames, dif_neg (fun hC => hcase hC.2.1)]
      rw [frameCount, if_pos (by omega)]
      exact ⟨rfl, by rw [Nat.zero_mul, List.drop_zero]⟩

/-- Claim C7: for every configuration with positive fftSize and overlap
factor in [0, 3/4], the created processor's hopSize is fftSize*(1-overlap)
rounded and clamped to at least 1; and processSamples on any buffered state
of that configuration appends the batch, emits one forward-FFT result per
full window at hop-size strides (each a successful FFTResult), and retains
exactly the samples past the last discarded hop. -/
theorem realTimeFFT_streaming_spec (fftSize : ℕ) (sampleRate : ℝ) (ov : ℚ)
    (win : FFT.WindowType) (b batch : List ℝ) (hfft : 0 < fftSize)
    (hov0 : 0 ≤ ov) (hov1 : ov ≤ 3 / 4) :
    ∀ st : RealTimeFFT,
      st = { RealTimeFFT.create fftSize sampleRate ov win with buffer := b } →
      st.hopSize = max 1 (round ((fftSize : ℚ) * (1 - ov))).toNat ∧
      1 ≤ st.hopSize ∧
      (st.processSamples batch).1 =
        (List.range (frameCount fftSize st.hopSize (b ++ batch).length)).map
          (fun i => FFT.forward (List.zipWith (fun s c => s * c)
            (((b ++ batch).drop (i * st.hopSize)).take fftSize)
            st.windowCoeffs) sampleRate FFT.WindowType.none) ∧
      (st.processSamples batch).2.buffer =
        (b ++ batch).drop
          (frameCount fftSize st.hopSize (b ++ batch).length * st.hopSize) ∧
      ∀ res ∈ (st.processSamples batch).1, ∃ r, res = makeOk r := by
  intro st hst
  subst hst
  set st : RealTimeFFT :=
    { RealTimeFFT.create fftSize sampleRate ov win with buffer := b } with hstdef
  have hhop0 : 0 < st.hopSize := by
    show 0 < max 1 (round ((fftSize : ℚ) * (1 - ov))).toNat
    omega
  have hspec := emitFrames_spec st.fftSize st.hopSize st.windowCoeffs
    st.sampleRate hfft hhop0 (b ++ batch)
  refine ⟨rfl, le_max_left 1 _, hspec.1, hspec.2, ?_⟩
  intro res hres
  rw [show (st.processSamples batch).1 =
      (List.range (frameCount fftSize st.hopSize (b ++ batch).length)).map
        (fun i => FFT.forward (List.zipWith (fun s c => s * c)
          (((b ++ batch).drop (i * st.hopSize)).take fftSize)
          st.windowCoeffs) sampleRate FFT.WindowType.none) from hspec.1] at hres
  obtain ⟨i, hi, rfl⟩ := List.mem_map.mp hres
  have hicnt : i < frameCount fftSize st.hopSize (b ++ batch).length :=
    List.mem_range.mp hi
  have hLge : fftSize ≤ (b ++ batch).length - i * st.hopSize := by
    rw [frameCount] at hicnt
    by_cases hL : (b ++ batch).length < fftSize
    · rw [if_pos hL] at hicnt
      omega
    · rw [if_neg hL] at hicnt
      set q := ((b ++ batch).length - fftSize) / st.hopSize with hq
      have h1 : i * st.hopSize ≤ q * st.hopSize :=
        Nat.mul_le_mul_right _ (by omega : i ≤ q)
      have h2 : q * st.hopSize ≤ (b ++ batch).length - fftSize := by
        rw [hq]
        exact Nat.div_mul_le_self _ _
      omega
  have hwclen : st.windowCoeffs.length = fftSize :=
    generateWindow_length fftSize win 0
  have hflen : (List.zipWith (fun s c => s * c)
      (((b ++ batch).drop (i * st.hopSize)).take fftSize)
      st.windowCoeffs).length = fftSize := by
    rw [List.length_zipWith, List.length_take, List.length_drop, hwclen]
    omega
  have hfe : (List.zipWith (fun s c => s * c)
      (((b ++ batch).drop (i * st.hopSize)).take fftSize)
      st.windowCoeffs).isEmpty = false := by
    rw [Bool.eq_false_iff]
    intro h
    have hl := congrArg List.length (List.isEmpty_iff.mp h)
    rw [hflen, List.length_nil] at hl
    omega
  cases hE : FFT.forward (List.zipWith (fun s c => s * c)
      (((b ++ batch).drop (i * st.hopSize)).take fftSize)
      st.windowCoeffs) sampleRate FFT.WindowType.none with
  | error e =>
    simp only [FFT.forward, hfe, Bool.false_eq_true, if_false, makeOk] at hE
    exact Except.noConfusion hE
  | ok r => exact ⟨r, rfl⟩

/-- Witness for claim C7 at fftSize 1, sampleRate 1, overlap 0, window None,
empty prior buffer and batch [0]: the configuration hypotheses hold and the
streaming characterization follows. -/
theorem realTimeFFT_streaming_spec_witness :
    0 < 1 ∧ (0 : ℚ) ≤ 0 ∧ (0 : ℚ) ≤ 3 / 4 ∧
      ∀ st : RealTimeFFT,
        st = { RealTimeFFT.create 1 1 0 FFT.WindowType.none with
          buffer := ([] : List ℝ) } →
        st.hopSize = max 1 (round (((1 : ℕ) : ℚ) * (1 - 0))).toNat ∧
        1 ≤ st.hopSize ∧
        (st.processSamples [0]).1 =
          (List.range (frameCount 1 st.hopSize
              ((([] : List ℝ) ++ [0]).length))).map
            (fun i => FFT.forward (List.zipWith (fun s c => s * c)
              (((([] : List ℝ) ++ [0]).drop (i * st.hopSize)).take 1)
              st.windowCoeffs) 1 FFT.WindowType.none) ∧
        (st.processSamples [0]).2.buffer =
          (([] : List ℝ) ++ [0]).drop
            (frameCount 1 st.hopSize ((([] : List ℝ) ++ [0]).length) *
              st.hopSize) ∧
        ∀ res ∈ (st.processSamples [0]).1, ∃ r, res = makeOk r :=
  ⟨by norm_num, by norm_num, by norm_num,
    realTimeFFT_streaming_spec 1 1 0 FFT.WindowType.none [] [0] (by norm_num)
      (by norm_num) (by norm_num)⟩

end RealTimeFFTModel


end Fmus
